import Mathlib

/-!
Verification of `src/stable-roommates.py` (Irving-style stable roommates).

The Python program is shallowly embedded: a Python `dict` keyed by
participants is an association list in key-insertion order, Python
exceptions become an explicit `PyErr` result, and each `while` loop or
unbounded recursion takes a fuel parameter.  Every function below mirrors
the source function of the same name; state (the mutated `preferences`
dict) is threaded explicitly and is also returned on the error paths that
the claims talk about.
-/

namespace StableRoommates

/-- Python-level exceptional outcomes: `KeyError`, `ValueError` (from
`list.index` / `list.remove`), `IndexError` (out-of-range subscript),
a raised `UnstableTableError`, and exhaustion of the loop fuel. -/
inductive PyErr where
  | keyError
  | valueError
  | indexError
  | unstable
  | fuelOut
deriving DecidableEq, Repr

/-- A Python dict `participant -> list of participants`, in insertion order. -/
abbrev Table (α : Type) := List (α × List α)

/-- The `proposal_record` dict: `participant -> [proposal_to, accepted_from]`,
with `none` standing for the empty string `""`. -/
abbrev Record (α : Type) := List (α × (Option α × Option α))

variable {α : Type} [DecidableEq α] {β : Type}

/-- Dict read `d[k]` (first binding wins, as keys are unique in a dict). -/
def alist_get : List (α × β) → α → Option β
  | [], _ => none
  | (k, v) :: t, a => if k = a then some v else alist_get t a

/-- Dict write `d[k] = v` for an existing key `k` (keeps insertion order;
all writes in the source target existing keys). -/
def alist_set : List (α × β) → α → β → List (α × β)
  | [], _, _ => []
  | (k, v) :: t, a, b => if k = a then (k, b) :: t else (k, v) :: alist_set t a b

/-- Index of the first occurrence of `x` in a list (`length` if absent). -/
def first_idx : List α → α → Nat
  | [], _ => 0
  | a :: t, x => if a = x then 0 else first_idx t x + 1

/-- Python `xs.index(x)`: index of the first occurrence, `ValueError` if absent. -/
def pyIndex (xs : List α) (x : α) : Except PyErr Nat :=
  if x ∈ xs then .ok (first_idx xs x) else .error .valueError

/-- Python `xs.remove(x)`: drop the first occurrence, `ValueError` if absent. -/
def pyRemove (xs : List α) (x : α) : Except PyErr (List α) :=
  if x ∈ xs then .ok (xs.erase x) else .error .valueError

/-- The source's recurring two-line pattern
`preferences[a].remove(b); preferences[b].remove(a)`
(lines 85-86, 92-93 and 335-336 of the source), as one state-passing step. -/
def remove_both (a b : α) (t : Table α) : (Except PyErr Unit) × Table α :=
  match alist_get t a with
  | none => (.error .keyError, t)
  | some la =>
    match pyRemove la b with
    | .error e => (.error e, t)
    | .ok la' =>
      let t1 := alist_set t a la'
      match alist_get t1 b with
      | none => (.error .keyError, t1)
      | some lb =>
        match pyRemove lb a with
        | .error e => (.error e, t1)
        | .ok lb' => (.ok (), alist_set t1 b lb')

/-- `proposal_record[k][0] = v` (keeps slot 1). -/
def rec_set_to (record : Record α) (k : α) (v : Option α) : Record α :=
  match alist_get record k with
  | some (_, f) => alist_set record k (v, f)
  | none => record

/-- `proposal_record[k][1] = v` (keeps slot 0). -/
def rec_set_from (record : Record α) (k : α) (v : Option α) : Record α :=
  match alist_get record k with
  | some (t, _) => alist_set record k (t, v)
  | none => record

/-- The `for proposee in current_proposer_prefs` walk inside
`make_proposals` (source lines 58-93).  The snapshot list is the copy
`preferences[current_proposer][:]`; `proposers` is the rest of the queue
(an eviction pushes the rejected participant onto its front).  Returns the
updated record and queue, threading the preference table. -/
def propose_walk (current_proposer : α) :
    List α → Table α → Record α → List α →
    (Except PyErr (Record α × List α)) × Table α
  | [], prefs, record, proposers => (.ok (record, proposers), prefs)
  | proposee :: rest_snapshot, prefs, record, proposers =>
    match alist_get prefs proposee with
    | none => (.error .keyError, prefs)
    | some proposee_prefs =>
      match pyIndex proposee_prefs current_proposer with
      | .error e => (.error e, prefs)
      | .ok current_proposer_ranking =>
        match alist_get record proposee with
        | none => (.error .keyError, prefs)
        | some (proposee_proposal_to, proposee_proposal_from) =>
          match alist_get record current_proposer with
          | none => (.error .keyError, prefs)
          | some _ =>
            match proposee_proposal_from with
            | none =>
              -- proposee has not accepted a proposal yet (lines 69-72)
              let record1 := rec_set_from record proposee (some current_proposer)
              let record2 := rec_set_to record1 current_proposer (some proposee)
              (.ok (record2, proposers), prefs)
            | some accepted_from =>
              match pyIndex proposee_prefs accepted_from with
              | .error e => (.error e, prefs)
              | .ok accepted_ranking =>
                if accepted_ranking > current_proposer_ranking then
                  -- current proposal is better than accepted one (lines 75-87)
                  let record1 := rec_set_from record proposee (some current_proposer)
                  let record2 := rec_set_to record1 current_proposer (some proposee)
                  let record3 := rec_set_to record2 accepted_from none
                  let proposers' := accepted_from :: proposers
                  match remove_both proposee accepted_from prefs with
                  | (.ok _, prefs') => (.ok (record3, proposers'), prefs')
                  | (.error e, prefs') => (.error e, prefs')
                else
                  -- proposee prefers previously accepted proposal (lines 90-93)
                  match remove_both proposee current_proposer prefs with
                  | (.ok _, prefs') =>
                    propose_walk current_proposer rest_snapshot prefs' record proposers
                  | (.error e, prefs') => (.error e, prefs')

/-- The `while proposers:` loop of `make_proposals` (lines 51-93). -/
def mp_loop : Nat → List α → Table α → Record α → (Except PyErr (Record α)) × Table α
  | 0, _, prefs, _ => (.error .fuelOut, prefs)
  | _, [], prefs, record => (.ok record, prefs)
  | fuel + 1, current_proposer :: rest, prefs, record =>
    match alist_get prefs current_proposer with
    | none => (.error .keyError, prefs)
    | some snapshot =>
      match propose_walk current_proposer snapshot prefs record rest with
      | (.ok (record', proposers'), prefs') => mp_loop fuel proposers' prefs' record'
      | (.error e, prefs') => (.error e, prefs')

/-- `make_proposals` (source lines 8-95). -/
def make_proposals (fuel : Nat) (preferences : Table α) :
    (Except PyErr (Record α)) × Table α :=
  mp_loop fuel (preferences.map Prod.fst) preferences
    (preferences.map (fun kv => (kv.1, ((none : Option α), (none : Option α)))))

/-- The loop of `is_stable_table` over `proposal_record.values()`
(lines 129-140), accumulating the seen proposers and proposees. -/
def ist_go : List (Option α × Option α) → List α → List α → Bool
  | [], _, _ => true
  | (proposee?, proposer?) :: rest, proposers, proposees =>
    match proposee?, proposer? with
    | some proposee, some proposer =>
      if proposer ∈ proposers ∨ proposee ∈ proposees then
        false
      else
        ist_go rest (proposer :: proposers) (proposee :: proposees)
    | _, _ => false

/-- `is_stable_table` (source lines 98-140). -/
def is_stable_table (record : Record α) : Bool :=
  ist_go (record.map Prod.snd) [] []

/-- The `for successor in successors` loop of `remove_trailing_prefs`
(lines 183-185). -/
def rtp_successor_pass (proposee : α) :
    List α → Table α → (Except PyErr Unit) × Table α
  | [], prefs => (.ok (), prefs)
  | successor :: rest, prefs =>
    match alist_get prefs successor with
    | none => (.error .keyError, prefs)
    | some succ_prefs =>
      if proposee ∈ succ_prefs then
        rtp_successor_pass proposee rest
          (alist_set prefs successor (succ_prefs.erase proposee))
      else
        rtp_successor_pass proposee rest prefs

/-- The `for proposer in proposal_record` loop of `remove_trailing_prefs`
(lines 172-185); a `none` proposal target is Python's `""`, whose dict
lookup raises `KeyError`. -/
def rtp_go (record : Record α) : List α → Table α → (Except PyErr Unit) × Table α
  | [], prefs => (.ok (), prefs)
  | proposer :: rest, prefs =>
    match alist_get record proposer with
    | none => (.error .keyError, prefs)
    | some (proposal_to, _) =>
      match proposal_to with
      | none => (.error .keyError, prefs)
      | some proposee =>
        match alist_get prefs proposee with
        | none => (.error .keyError, prefs)
        | some proposee_prefs =>
          match pyIndex proposee_prefs proposer with
          | .error e => (.error e, prefs)
          | .ok proposer_ranking =>
            let successors := proposee_prefs.drop (proposer_ranking + 1)
            let prefs1 := alist_set prefs proposee (proposee_prefs.take (proposer_ranking + 1))
            match rtp_successor_pass proposee successors prefs1 with
            | (.ok _, prefs2) => rtp_go record rest prefs2
            | (.error e, prefs2) => (.error e, prefs2)

/-- `remove_trailing_prefs` (source lines 143-187); the returned table is
the updated `preferences`. -/
def remove_trailing_prefs (record : Record α) (preferences : Table α) :
    (Except PyErr Unit) × Table α :=
  rtp_go record (record.map Prod.fst) preferences

/-- The recursive `find_cycle` of `get_stable_match` (lines 234-245),
with `p` and `q` kept most-recent-first (`p[-1]` is the head).  It only
reads the table. -/
def find_cycle (prefs : Table α) : Nat → List α → List α → Except PyErr (List α × List α)
  | 0, _, _ => .error .fuelOut
  | fuel + 1, pRev, qRev =>
    match pRev with
    | [] => .error .indexError
    | pLast :: _ =>
      match alist_get prefs pLast with
      | none => .error .keyError
      | some pLast_prefs =>
        match pLast_prefs.get? 1 with
        | none => .error .indexError
        | some new_q =>
          match alist_get prefs new_q with
          | none => .error .keyError
          | some q_pref_list =>
            match q_pref_list.getLast? with
            | none => .error .indexError
            | some new_p =>
              if new_p ∈ pRev then
                .ok (new_p :: pRev, new_q :: qRev)
              else
                find_cycle prefs fuel (new_p :: pRev) (new_q :: qRev)

/-- `cycle = [(p[i + 1], q[i]) for i in range(start, len(p) - 1)]`
(line 251); `x0` is a default for the in-range subscripts. -/
def cycle_of (p q : List α) (start : Nat) (x0 : α) : List (α × α) :=
  (List.range (p.length - 1 - start)).map
    (fun j => (p.getD (start + j + 1) x0, q.getD (start + j) x0))

/-- The indexed loop of `find_pairs_to_remove` (lines 293-307), with the
accumulated `pairs` list appended at the back as in the source. -/
def fptr_go (cycle : List (α × α)) (prefs : Table α) :
    Nat → List (α × α) → List (α × α) → Except PyErr (List (α × α))
  | _, [], pairs => .ok pairs
  | i, (_, participant) :: rest, pairs =>
    match alist_get prefs participant with
    | none => .error .keyError
    | some participant_prefs =>
      let j := if i = 0 then cycle.length - 1 else i - 1
      match cycle.get? j with
      | none => .error .indexError
      | some (first_pref, _) =>
        match pyIndex participant_prefs first_pref with
        | .error e => .error e
        | .ok r =>
          let successors := participant_prefs.drop (r + 1)
          let pairs' := successors.foldl
            (fun acc successor =>
              if (participant, successor) ∈ acc ∨ (successor, participant) ∈ acc then
                acc
              else
                acc ++ [(participant, successor)])
            pairs
          fptr_go cycle prefs (i + 1) rest pairs'

/-- `find_pairs_to_remove` (source lines 269-307). -/
def find_pairs_to_remove (cycle : List (α × α)) (prefs : Table α) :
    Except PyErr (List (α × α)) :=
  fptr_go cycle prefs 0 cycle []

/-- `remove_pairs` (source lines 310-340): sequential symmetric removals;
after each removed pair, if either side's list became empty an
`UnstableTableError` is raised, with the removals so far kept. -/
def remove_pairs : List (α × α) → Table α → (Except PyErr Unit) × Table α
  | [], prefs => (.ok (), prefs)
  | (left, right) :: rest, prefs =>
    match remove_both left right prefs with
    | (.error e, t) => (.error e, t)
    | (.ok _, t) =>
      match alist_get t left, alist_get t right with
      | some left_prefs, some right_prefs =>
        if left_prefs.isEmpty || right_prefs.isEmpty then
          (.error .unstable, t)
        else
          remove_pairs rest t
      | _, _ => (.error .keyError, t)

/-- Fuel that always suffices for one `find_cycle` search: the `p`
sequence repeats within the (finite) pool of listed participants. -/
def fc_fuel (prefs : Table α) : Nat :=
  (prefs.map (fun kv => kv.2.length)).sum + 2

/-- One round of `get_stable_match`'s inner `while` loop for a fixed
`participant` (lines 233-264): find a cycle, compute the elimination
pairs, remove them; `.ok true` means the list reached length ≤ 1,
`.ok false` means the `UnstableTableError` branch returned the class. -/
def gsm_round : Nat → α → Table α → (Except PyErr Bool) × Table α
  | 0, _, prefs => (.error .fuelOut, prefs)
  | fuel + 1, participant, prefs =>
    match alist_get prefs participant with
    | none => (.error .keyError, prefs)
    | some l =>
      if l.length ≤ 1 then
        (.ok true, prefs)
      else
        match find_cycle prefs (fc_fuel prefs) [participant] [] with
        | .error e => (.error e, prefs)
        | .ok (pRev, qRev) =>
          match pRev with
          | [] => (.error .indexError, prefs)
          | pLast :: _ =>
            let p := pRev.reverse
            let q := qRev.reverse
            let start := first_idx p pLast
            let cycle := cycle_of p q start participant
            match find_pairs_to_remove cycle prefs with
            | .error e => (.error e, prefs)
            | .ok elimination_pairs =>
              match remove_pairs elimination_pairs prefs with
              | (.ok _, prefs') => gsm_round fuel participant prefs'
              | (.error .unstable, prefs') => (.ok false, prefs')
              | (.error e, prefs') => (.error e, prefs')

/-- Outcome of `get_stable_match`: the (mutated) table was returned, or
the class `UnstableTableError` itself was returned as a value (line 260). -/
inductive GsmRet where
  | table
  | errClass
deriving DecidableEq, Repr

/-- The `for participant in preferences` loop of `get_stable_match`. -/
def gsm_outer (fuel : Nat) : List α → Table α → (Except PyErr GsmRet) × Table α
  | [], prefs => (.ok .table, prefs)
  | participant :: rest, prefs =>
    match gsm_round fuel participant prefs with
    | (.ok true, prefs') => gsm_outer fuel rest prefs'
    | (.ok false, prefs') => (.ok .errClass, prefs')
    | (.error e, prefs') => (.error e, prefs')

/-- `get_stable_match` (source lines 190-266). -/
def get_stable_match (fuel : Nat) (prefs : Table α) :
    (Except PyErr GsmRet) × Table α :=
  gsm_outer fuel (prefs.map Prod.fst) prefs

/-- Result of `find_stable_pairings`: the preference table (now the
matching), the `UnstableTableError("No stable pairings possible")`
instance (line 368/378), or the class `UnstableTableError` itself passed
through from `get_stable_match` (line 260). -/
inductive SRRet (α : Type) where
  | matching (t : Table α)
  | errInstance (msg : String)
  | errClass
deriving DecidableEq, Repr

/-- `find_stable_pairings` (source lines 343-378).  The second component
is the caller's `preferences` dict after the call. -/
def find_stable_pairings (preferences : Table α) (fuel : Nat) :
    (Except PyErr (SRRet α)) × Table α :=
  match make_proposals fuel preferences with
  | (.error e, prefs1) => (.error e, prefs1)
  | (.ok record, prefs1) =>
    if is_stable_table record then
      match remove_trailing_prefs record prefs1 with
      | (.error e, prefs2) => (.error e, prefs2)
      | (.ok _, prefs2) =>
        match get_stable_match fuel prefs2 with
        | (.ok .table, prefs3) => (.ok (.matching prefs3), prefs3)
        | (.ok .errClass, prefs3) => (.ok .errClass, prefs3)
        | (.error .unstable, prefs3) =>
          (.ok (.errInstance "No stable pairings possible"), prefs3)
        | (.error e, prefs3) => (.error e, prefs3)
    else
      (.ok (.errInstance "No stable pairings possible"), prefs1)

/-! ### Specification-side definitions

The input contract, the symmetry invariant and the blocking-pair notion,
phrased over the same embedding, plus the repository's literal fixtures. -/

/-- The input contract of §6: each participant maps to an ordered list
containing every other participant exactly once. -/
def valid_table (t : Table α) : Bool :=
  decide (t.map Prod.fst).Nodup &&
    t.all (fun kv => kv.2.isPerm ((t.map Prod.fst).erase kv.1))

/-- The single partner recorded for `p` in a result table (head of its list). -/
def partner_of (m : Table α) (p : α) : Option α :=
  (alist_get m p).bind List.head?

/-- `x` is ranked strictly better than `y` in the preference list `l`. -/
def prefers (l : List α) (x y : α) : Prop :=
  first_idx l x < first_idx l y

/-- The removal symmetry invariant of §8: whenever `b` is absent from
`a`'s list, `a` is absent from `b`'s list. -/
def SymTable (t : Table α) : Prop :=
  ∀ a b la lb, alist_get t a = some la → alist_get t b = some lb → b ∉ la → a ∉ lb

/-- Executable form of `SymTable` (used to state hypotheses decidably). -/
def sym_table (t : Table α) : Bool :=
  t.all (fun av => t.all (fun bv => bv.1 ∈ av.2 || !(av.1 ∈ bv.2)))

/-- Every preference list of the table is duplicate-free. -/
def NodupTable (t : Table α) : Prop :=
  ∀ a l, alist_get t a = some l → l.Nodup

/-- Executable form of `NodupTable`. -/
def nodup_table (t : Table α) : Bool :=
  t.all (fun kv => decide kv.2.Nodup)

/-- Pointwise sublist relation between two tables over the same keys:
every current list is a subsequence of the corresponding `t0` list
(lists only ever shrink, preserving relative order). -/
def SubTable (t0 t : Table α) : Prop :=
  ∀ a l0 l, alist_get t0 a = some l0 → alist_get t a = some l → l.Sublist l0

/-- `proposal_record[a][0]`: the target of `a`'s currently-accepted
outgoing proposal. -/
def rec_out (rec : Record α) (a : α) : Option α :=
  (alist_get rec a).bind Prod.fst

/-- `proposal_record[a][1]`: the proposer whose proposal `a` currently holds. -/
def rec_in (rec : Record α) (a : α) : Option α :=
  (alist_get rec a).bind Prod.snd

/-- Rejection witness for the removed pair `(a, b)`: `a` currently holds a
proposer it ranks strictly better than `b` in its original list. -/
def RejW (t0 : Table α) (rec : Record α) (a b : α) : Prop :=
  ∃ c l0a, alist_get t0 a = some l0a ∧ rec_in rec a = some c ∧
    c ∈ l0a ∧ first_idx l0a c < first_idx l0a b

/-- Every member of `l` is ranked strictly better than `b` in the
original list `l0`. -/
def AllBefore (l0 l : List α) (b : α) : Prop :=
  ∀ x ∈ l, first_idx l0 x < first_idx l0 b

/-- Every member of `l` is ranked at least as well as `c` in the original
list `l0`. -/
def AllAtMost (l0 l : List α) (c : α) : Prop :=
  ∀ x ∈ l, first_idx l0 x ≤ first_idx l0 c

/-- Removal safety relative to the original table: every pair ever removed
has a side whose whole remaining list it strictly prefers to the removed
partner, so a removed pair can never become a blocking pair. -/
def RemSafe (t0 t : Table α) : Prop :=
  ∀ a b l0a la, alist_get t0 a = some l0a → alist_get t a = some la →
    b ∈ l0a → b ∉ la →
    AllBefore l0a la b ∨
    (∃ l0b lb, alist_get t0 b = some l0b ∧ alist_get t b = some lb ∧
      AllBefore l0b lb a)

/-- Certificate carried by every elimination pair `(l, r)` that
`find_pairs_to_remove` lists (relative to the full output `R`): `r` sits
strictly after position `k` (the held first preference) in `l`'s current
list, and every successor past that position is scheduled for removal in
one orientation or the other. -/
def ElimCert (prefs : Table α) (R : List (α × α)) : α × α → Prop
  | (l, r) => ∃ ll k, alist_get prefs l = some ll ∧ r ∈ ll.drop (k + 1) ∧
      ∀ s ∈ ll.drop (k + 1), (l, s) ∈ R ∨ (s, l) ∈ R

/-- The invariant maintained across the steps of `remove_trailing_prefs`
(the proposal record is read-only there). -/
structure TrimInv (t0 t : Table α) (rec : Record α) : Prop where
  keysEq : t.map Prod.fst = t0.map Prod.fst
  sub : SubTable t0 t
  sym : SymTable t
  outHead : ∀ a b, rec_out rec a = some b →
    ∃ l, alist_get t a = some l ∧ l.head? = some b
  inMem : ∀ a c, rec_in rec a = some c →
    ∃ l, alist_get t a = some l ∧ c ∈ l
  rejSafe : ∀ a b l0a la, alist_get t0 a = some l0a → alist_get t a = some la →
    b ∈ l0a → b ∉ la → RejW t0 rec a b ∨ RejW t0 rec b a

/-- The Phase-1 loop invariant of `make_proposals`, relative to the
original table `t0`. -/
structure Ph1Inv (t0 t : Table α) (rec : Record α) (queue : List α) : Prop where
  keysEq : t.map Prod.fst = t0.map Prod.fst
  recKeys : rec.map Prod.fst = t0.map Prod.fst
  sub : SubTable t0 t
  sym : SymTable t
  outFirst : ∀ a b, rec_out rec a = some b →
    ∃ l, alist_get t a = some l ∧ l.head? = some b
  outIn : ∀ a b, rec_out rec a = some b ↔ rec_in rec b = some a
  queueOut : ∀ p, p ∈ queue → rec_out rec p = none
  queueNodup : queue.Nodup
  valKeys : ∀ a b, (rec_out rec a = some b → b ∈ t0.map Prod.fst) ∧
    (rec_in rec a = some b → b ∈ t0.map Prod.fst)
  rejSafe : ∀ a b l0a la, alist_get t0 a = some l0a → alist_get t a = some la →
    b ∈ l0a → b ∉ la → RejW t0 rec a b ∨ RejW t0 rec b a

/-- The `unstable` fixture (source lines 383-388). -/
def unstableT : Table String :=
  [("A", ["B", "C", "D"]), ("B", ["C", "A", "D"]),
   ("C", ["A", "B", "D"]), ("D", ["B", "A", "C"])]

/-- The `stable_phase1` fixture (source lines 390-395). -/
def stable_phase1 : Table String :=
  [("A", ["B", "C", "D"]), ("B", ["A", "C", "D"]),
   ("C", ["D", "B", "A"]), ("D", ["C", "B", "A"])]

/-- The `stable_phase2` fixture (source lines 397-402). -/
def stable_phase2 : Table String :=
  [("A", ["C", "B", "D"]), ("B", ["A", "C", "D"]),
   ("C", ["D", "B", "A"]), ("D", ["B", "A", "C"])]

/-- A 6-participant instance with no stable matching on which Phase 1
succeeds and Phase 2's `remove_pairs` raises, so `get_stable_match`
returns the error class (source line 260). -/
def phase2bad : Table String :=
  [("A", ["D", "C", "B", "F", "E"]), ("B", ["F", "A", "E", "C", "D"]),
   ("C", ["D", "F", "B", "E", "A"]), ("D", ["B", "E", "C", "A", "F"]),
   ("E", ["F", "B", "C", "D", "A"]), ("F", ["A", "B", "C", "D", "E"])]

/-- A malformed input (B's list omits A): the contract of §6 is violated. -/
def malformed1 : Table String := [("A", ["B"]), ("B", [])]

/-- A malformed input (A's list holds B twice). -/
def malformed2 : Table String := [("A", ["B", "B"]), ("B", ["A"])]

/-! ### Association-list and list-index utility lemmas -/

theorem alist_get_mem {t : List (α × β)} {a : α} {l : β}
    (h : alist_get t a = some l) : (a, l) ∈ t := by
  induction t with
  | nil => simp [alist_get] at h
  | cons kv rest ih =>
    rcases kv with ⟨k, v⟩
    unfold alist_get at h
    split at h
    · simp_all
    · exact List.mem_cons_of_mem _ (ih h)

theorem alist_get_eq_none_iff {t : List (α × β)} {a : α} :
    alist_get t a = none ↔ a ∉ t.map Prod.fst := by
  induction t with
  | nil => simp [alist_get]
  | cons kv rest ih =>
    rcases kv with ⟨k, v⟩
    unfold alist_get
    by_cases hk : k = a
    · simp [hk]
    · simp [hk, ih, Ne.symm hk]

theorem alist_get_isSome_iff {t : List (α × β)} {a : α} :
    (alist_get t a).isSome ↔ a ∈ t.map Prod.fst := by
  rcases h : alist_get t a with _ | l
  · simpa using alist_get_eq_none_iff.mp h
  · simp only [Option.isSome_some, true_iff]
    by_contra hc
    rw [alist_get_eq_none_iff.mpr hc] at h
    exact Option.noConfusion h

theorem alist_set_map_fst (t : List (α × β)) (a : α) (v : β) :
    (alist_set t a v).map Prod.fst = t.map Prod.fst := by
  induction t with
  | nil => rfl
  | cons kv rest ih =>
    rcases kv with ⟨k, w⟩
    unfold alist_set
    split <;> simp_all

theorem alist_get_cons (k : α) (v : β) (t : List (α × β)) (a : α) :
    alist_get ((k, v) :: t) a = if k = a then some v else alist_get t a := rfl

theorem alist_set_cons (k : α) (v : β) (t : List (α × β)) (a : α) (b : β) :
    alist_set ((k, v) :: t) a b =
      if k = a then (k, b) :: t else (k, v) :: alist_set t a b := rfl

theorem alist_get_set_self (t : List (α × β)) (a : α) (v : β) :
    alist_get (alist_set t a v) a = (alist_get t a).map (fun _ => v) := by
  induction t with
  | nil => rfl
  | cons kv rest ih =>
    rcases kv with ⟨k, w⟩
    rw [alist_set_cons]
    by_cases hk : k = a
    · rw [if_pos hk, alist_get_cons, if_pos hk, alist_get_cons, if_pos hk]
      rfl
    · rw [if_neg hk, alist_get_cons, if_neg hk, alist_get_cons, if_neg hk]
      exact ih

theorem alist_get_set_ne (t : List (α × β)) {a b : α} (v : β) (h : b ≠ a) :
    alist_get (alist_set t a v) b = alist_get t b := by
  induction t with
  | nil => rfl
  | cons kv rest ih =>
    rcases kv with ⟨k, w⟩
    rw [alist_set_cons]
    by_cases hk : k = a
    · rw [if_pos hk, alist_get_cons, alist_get_cons,
        if_neg (hk ▸ fun hc => h hc.symm : ¬k = b),
        if_neg (hk ▸ fun hc => h hc.symm : ¬k = b)]
    · rw [if_neg hk, alist_get_cons, alist_get_cons]
      by_cases hkb : k = b
      · rw [if_pos hkb, if_pos hkb]
      · rw [if_neg hkb, if_neg hkb]
        exact ih

theorem mem_alist_get {t : List (α × β)} (hnd : (t.map Prod.fst).Nodup)
    {a : α} {l : β} (h : (a, l) ∈ t) : alist_get t a = some l := by
  induction t with
  | nil => simp at h
  | cons kv rest ih =>
    rcases kv with ⟨k, v⟩
    simp only [List.map_cons, List.nodup_cons] at hnd
    rcases List.mem_cons.mp h with h1 | h1
    · rcases Prod.mk.injEq .. ▸ h1 with ⟨hk, hv⟩
      unfold alist_get
      simp [hk.symm, hv.symm]
    · unfold alist_get
      split
      next hk =>
        subst hk
        exact absurd (List.mem_map_of_mem Prod.fst h1) hnd.1
      · exact ih hnd.2 h1

theorem first_idx_lt_length {l : List α} {x : α} (h : x ∈ l) :
    first_idx l x < l.length := by
  induction l with
  | nil => simp at h
  | cons a rest ih =>
    unfold first_idx
    split
    · simp
    next hne =>
      have : x ∈ rest := by
        rcases List.mem_cons.mp h with h1 | h1
        · exact absurd h1.symm hne
        · exact h1
      simpa using Nat.succ_lt_succ (ih this)

theorem first_idx_get {l : List α} {x : α} (h : x ∈ l) :
    l.get? (first_idx l x) = some x := by
  induction l with
  | nil => simp at h
  | cons a rest ih =>
    unfold first_idx
    split
    next heq => simp [heq]
    next hne =>
      have : x ∈ rest := by
        rcases List.mem_cons.mp h with h1 | h1
        · exact absurd h1.symm hne
        · exact h1
      simpa using ih this

theorem first_idx_inj {l : List α} {x y : α} (hx : x ∈ l) (hy : y ∈ l)
    (h : first_idx l x = first_idx l y) : x = y := by
  have h1 := first_idx_get hx
  have h2 := first_idx_get hy
  rw [h] at h1
  rw [h1] at h2
  exact (Option.some.injEq .. ▸ h2)

theorem pyIndex_ok_iff {l : List α} {x : α} {i : Nat} :
    pyIndex l x = .ok i ↔ x ∈ l ∧ i = first_idx l x := by
  unfold pyIndex
  split
  · simp_all [eq_comm]
  · simp_all

theorem first_idx_mem_take {l : List α} {x : α} {n : Nat}
    (h : x ∈ l.take n) : first_idx l x < n := by
  induction l generalizing n with
  | nil => simp at h
  | cons a rest ih =>
    cases n with
    | zero => simp at h
    | succ m =>
      unfold first_idx
      split
      · simp
      next hne =>
        have : x ∈ rest.take m := by
          rcases List.mem_cons.mp (by simpa using h) with h1 | h1
          · exact absurd h1.symm hne
          · exact h1
        simpa using Nat.succ_lt_succ (ih this)

theorem first_idx_mem_drop {l : List α} {x : α} {n : Nat} (hnd : l.Nodup)
    (h : x ∈ l.drop n) : n ≤ first_idx l x := by
  induction l generalizing n with
  | nil => simp at h
  | cons a rest ih =>
    cases n with
    | zero => simp
    | succ m =>
      simp only [List.drop_succ_cons] at h
      unfold first_idx
      split
      next heq =>
        subst heq
        exact absurd (List.mem_of_mem_drop h) (List.nodup_cons.mp hnd).1
      next hne =>
        exact Nat.succ_le_succ (ih (List.nodup_cons.mp hnd).2 h)

theorem sublist_first_idx_lt {l l0 : List α} (hs : l.Sublist l0)
    (hnd : l0.Nodup) {x y : α} (hx : x ∈ l) (hy : y ∈ l)
    (h : first_idx l x < first_idx l y) : first_idx l0 x < first_idx l0 y := by
  induction hs with
  | slnil => simp at hx
  | cons a hs ih =>
    next l₁ l₂ =>
    have hnd2 := (List.nodup_cons.mp hnd).2
    have hax : a ≠ x := fun hc => (List.nodup_cons.mp hnd).1 (hc ▸ hs.mem hx)
    have hay : a ≠ y := fun hc => (List.nodup_cons.mp hnd).1 (hc ▸ hs.mem hy)
    unfold first_idx
    rw [if_neg hax, if_neg hay]
    exact Nat.succ_lt_succ (ih hnd2 hx hy h)
  | cons₂ a hs ih =>
    next l₁ l₂ =>
    have hnd2 := (List.nodup_cons.mp hnd).2
    unfold first_idx at h ⊢
    by_cases hax : a = x
    · rw [if_pos hax] at h ⊢
      by_cases hay : a = y
      · rw [if_pos hay] at h
        exact absurd h (by simp)
      · rw [if_neg hay] at h ⊢
        simp
    · rw [if_neg hax] at h ⊢
      by_cases hay : a = y
      · rw [if_pos hay] at h
        exact absurd h (by simp)
      · rw [if_neg hay] at h ⊢
        have hx' : x ∈ l₁ := by
          rcases List.mem_cons.mp hx with h1 | h1
          · exact absurd h1.symm hax
          · exact h1
        have hy' : y ∈ l₁ := by
          rcases List.mem_cons.mp hy with h1 | h1
          · exact absurd h1.symm hay
          · exact h1
        exact Nat.succ_lt_succ (ih hnd2 hx' hy' (Nat.lt_of_succ_lt_succ h))

/-! ### Characterisation of `remove_both` and invariant preservation -/

theorem sym_mem_iff {t : Table α} (hs : SymTable t) {a b : α} {la lb : List α}
    (ha : alist_get t a = some la) (hb : alist_get t b = some lb) :
    b ∈ la ↔ a ∈ lb := by
  constructor
  · intro h
    by_contra hc
    exact absurd h (hs b a lb la hb ha hc)
  · intro h
    by_contra hc
    exact absurd h (hs a b la lb ha hb hc)

theorem remove_both_ok {a b : α} {t t' : Table α} {u : Unit}
    (h : remove_both a b t = (.ok u, t')) :
    ∃ la lb, alist_get t a = some la ∧ b ∈ la ∧
      alist_get (alist_set t a (la.erase b)) b = some lb ∧ a ∈ lb ∧
      t' = alist_set (alist_set t a (la.erase b)) b (lb.erase a) := by
  simp only [remove_both] at h
  split at h
  · simp at h
  next la hla =>
    split at h
    next e heq => simp at h
    next la' heq =>
      have hmem : b ∈ la ∧ la' = la.erase b := by
        unfold pyRemove at heq
        split at heq <;> simp_all
      obtain ⟨hb, rfl⟩ := hmem
      split at h
      · simp at h
      next lb hlb =>
        split at h
        next e heq2 => simp at h
        next lb' heq2 =>
          have hmem2 : a ∈ lb ∧ lb' = lb.erase a := by
            unfold pyRemove at heq2
            split at heq2 <;> simp_all
          obtain ⟨hb2, rfl⟩ := hmem2
          simp at h
          exact ⟨la, lb, hla, hb, hlb, hb2, h.symm⟩

theorem remove_both_ok_desc {a b : α} {t t' : Table α} {u : Unit}
    (hnd : NodupTable t) (h : remove_both a b t = (.ok u, t')) :
    ∃ la lb, a ≠ b ∧ alist_get t a = some la ∧ alist_get t b = some lb ∧
      b ∈ la ∧ a ∈ lb ∧
      alist_get t' a = some (la.erase b) ∧
      alist_get t' b = some (lb.erase a) ∧
      (∀ x, x ≠ a → x ≠ b → alist_get t' x = alist_get t x) ∧
      t'.map Prod.fst = t.map Prod.fst := by
  obtain ⟨la, lb, hla, hbla, hlb, halb, ht'⟩ := remove_both_ok h
  have hne : a ≠ b := by
    intro hc
    subst hc
    rw [alist_get_set_self, hla] at hlb
    simp at hlb
    subst hlb
    exact absurd halb (by
      intro hmem
      exact absurd (List.Nodup.mem_erase_iff (hnd a la hla) |>.mp hmem).1 (by simp))
  have hlb0 : alist_get t b = some lb := by
    rw [alist_get_set_ne t _ (Ne.symm hne)] at hlb
    exact hlb
  subst ht'
  refine ⟨la, lb, hne, hla, hlb0, hbla, halb, ?_, ?_, ?_, ?_⟩
  · rw [alist_get_set_ne _ _ hne, alist_get_set_self, hla]
    rfl
  · rw [alist_get_set_self, hlb]
    rfl
  · intro x hxa hxb
    rw [alist_get_set_ne _ _ hxb, alist_get_set_ne _ _ hxa]
  · rw [alist_set_map_fst, alist_set_map_fst]

theorem remove_both_nodup {a b : α} {t t' : Table α} {u : Unit}
    (hnd : NodupTable t) (h : remove_both a b t = (.ok u, t')) :
    NodupTable t' := by
  obtain ⟨la, lb, hne, hla, hlb, _, _, ha', hb', hother, _⟩ :=
    remove_both_ok_desc hnd h
  intro x lx hx
  by_cases hxa : x = a
  · subst hxa
    rw [hx] at ha'
    obtain rfl : lx = la.erase b := by simpa using ha'
    exact (hnd x la hla).erase b
  · by_cases hxb : x = b
    · subst hxb
      rw [hx] at hb'
      obtain rfl : lx = lb.erase a := by simpa using hb'
      exact (hnd x lb hlb).erase a
    · rw [hother x hxa hxb] at hx
      exact hnd x lx hx

theorem remove_both_sym {a b : α} {t t' : Table α} {u : Unit}
    (hs : SymTable t) (hnd : NodupTable t)
    (h : remove_both a b t = (.ok u, t')) : SymTable t' := by
  obtain ⟨la, lb, hne, hla, hlb, hbla, halb, ha', hb', hother, _⟩ :=
    remove_both_ok_desc hnd h
  have hmem : ∀ z lz' w, alist_get t' z = some lz' →
      ∃ lz, alist_get t z = some lz ∧
        (w ∈ lz' ↔ w ∈ lz ∧ ¬(z = a ∧ w = b) ∧ ¬(z = b ∧ w = a)) := by
    intro z lz' w hz
    by_cases hza : z = a
    · subst hza
      rw [hz] at ha'
      obtain rfl : lz' = la.erase b := by simpa using ha'
      refine ⟨la, hla, ?_⟩
      rw [(hnd z la hla).mem_erase_iff]
      constructor
      · rintro ⟨hwb, hw⟩
        exact ⟨hw, fun hc => hwb hc.2, fun hc => hne hc.1⟩
      · rintro ⟨hw, hc1, _⟩
        exact ⟨fun hwb => hc1 ⟨rfl, hwb⟩, hw⟩
    · by_cases hzb : z = b
      · subst hzb
        rw [hz] at hb'
        obtain rfl : lz' = lb.erase a := by simpa using hb'
        refine ⟨lb, hlb, ?_⟩
        rw [(hnd z lb hlb).mem_erase_iff]
        constructor
        · rintro ⟨hwa, hw⟩
          exact ⟨hw, fun hc => hne hc.1.symm, fun hc => hwa hc.2⟩
        · rintro ⟨hw, _, hc2⟩
          exact ⟨fun hwa => hc2 ⟨rfl, hwa⟩, hw⟩
      · rw [hother z hza hzb] at hz
        exact ⟨lz', hz, by simp [hza, hzb]⟩
  intro x y lx' ly' hx hy hnotin hxin
  obtain ⟨lx, hlx, hiffx⟩ := hmem x lx' y hx
  obtain ⟨ly, hly, hiffy⟩ := hmem y ly' x hy
  obtain ⟨hxly, hc1, hc2⟩ := hiffy.mp hxin
  have hylx : y ∈ lx := (sym_mem_iff hs hlx hly).mpr hxly
  exact hnotin (hiffx.mpr ⟨hylx,
    fun hc => hc2 ⟨hc.2, hc.1⟩, fun hc => hc1 ⟨hc.2, hc.1⟩⟩)

theorem remove_both_subtable {t0 t t' : Table α} {a b : α} {u : Unit}
    (hnd : NodupTable t) (hsub : SubTable t0 t)
    (h : remove_both a b t = (.ok u, t')) : SubTable t0 t' := by
  obtain ⟨la, lb, hne, hla, hlb, _, _, ha', hb', hother, _⟩ :=
    remove_both_ok_desc hnd h
  intro x l0 lx' h0 hx
  by_cases hxa : x = a
  · subst hxa
    rw [hx] at ha'
    obtain rfl : lx' = la.erase b := by simpa using ha'
    exact (List.erase_sublist b la).trans (hsub x l0 la h0 hla)
  · by_cases hxb : x = b
    · subst hxb
      rw [hx] at hb'
      obtain rfl : lx' = lb.erase a := by simpa using hb'
      exact (List.erase_sublist a lb).trans (hsub x l0 lb h0 hlb)
    · rw [hother x hxa hxb] at hx
      exact hsub x l0 lx' h0 hx

theorem remove_both_keys {a b : α} {t t' : Table α} {u : Unit}
    (h : remove_both a b t = (.ok u, t')) :
    t'.map Prod.fst = t.map Prod.fst := by
  obtain ⟨la, lb, hla, _, hlb, _, ht'⟩ := remove_both_ok h
  subst ht'
  rw [alist_set_map_fst, alist_set_map_fst]

/-! ### Basic facts about the failure plumbing -/

theorem pyRemove_error {l : List α} {x : α} {e : PyErr}
    (h : pyRemove l x = .error e) : e = .valueError := by
  unfold pyRemove at h
  split at h <;> simp_all

theorem remove_both_error_ne_unstable {a b : α} {t t' : Table α} {e : PyErr}
    (h : remove_both a b t = (.error e, t')) : e ≠ .unstable := by
  intro hc
  subst hc
  simp only [remove_both] at h
  split at h
  · simp at h
  · split at h
    next e1 heq => simp at h; rw [pyRemove_error heq] at h; simp at h
    next la' heq =>
      split at h
      · simp at h
      · split at h
        next e2 heq2 => simp at h; rw [pyRemove_error heq2] at h; simp at h
        next lb' heq2 => simp at h

/-- `find_stable_pairings` returns its own final preference state as the
matching: the dict handed back to the caller is the mutated input. -/
theorem find_stable_pairings_matching_state {t : Table α} {fuel : Nat}
    {m : SRRet α} {s : Table α}
    (h : find_stable_pairings t fuel = (.ok m, s)) :
    ∀ m', m = .matching m' → s = m' := by
  intro m' hm
  subst hm
  unfold find_stable_pairings at h
  rcases hmp : make_proposals fuel t with ⟨r1, t1⟩
  rw [hmp] at h
  cases r1 with
  | error e => simp at h
  | ok rec =>
    simp only at h
    by_cases hst : is_stable_table rec
    · rw [if_pos hst] at h
      rcases hrt : remove_trailing_prefs rec t1 with ⟨r2, t2⟩
      rw [hrt] at h
      cases r2 with
      | error e => simp at h
      | ok u =>
        simp only at h
        rcases hg : get_stable_match fuel t2 with ⟨r3, t3⟩
        rw [hg] at h
        cases r3 with
        | error e =>
          cases e <;> simp_all
        | ok g =>
          cases g with
          | table =>
            rw [Prod.mk.injEq] at h
            obtain ⟨ha, hb⟩ := h
            injection ha with ha
            injection ha with ha
            subst hb
            exact ha
          | errClass => simp at h
    · rw [if_neg hst] at h
      simp at h

theorem fsp_phase1_failure {t : Table α} {fuel : Nat} {rec : Record α}
    {t1 : Table α} (h1 : make_proposals fuel t = (.ok rec, t1))
    (h2 : is_stable_table rec = false) :
    find_stable_pairings t fuel = (.ok (.errInstance "No stable pairings possible"), t1) := by
  unfold find_stable_pairings
  rw [h1]
  simp [h2]

theorem fsp_phase2_failure {t : Table α} {fuel : Nat} {rec : Record α}
    {t1 t2 t3 : Table α} {u : Unit}
    (h1 : make_proposals fuel t = (.ok rec, t1))
    (h2 : is_stable_table rec = true)
    (h3 : remove_trailing_prefs rec t1 = (.ok u, t2))
    (h4 : get_stable_match fuel t2 = (.ok .errClass, t3)) :
    find_stable_pairings t fuel = (.ok .errClass, t3) := by
  unfold find_stable_pairings
  rw [h1]
  simp [h2, h3, h4]

theorem remove_pairs_stops_at_empty {ps : List (α × α)} {t t' : Table α}
    (h : remove_pairs ps t = (.error .unstable, t')) :
    ∃ k, k < ps.length ∧
      remove_pairs (ps.take (k + 1)) t = (.error .unstable, t') ∧
      ∃ l r, ps.get? k = some (l, r) ∧
        (alist_get t' l = some [] ∨ alist_get t' r = some []) := by
  induction ps generalizing t with
  | nil => simp [remove_pairs] at h
  | cons p rest ih =>
    rcases p with ⟨l, r⟩
    unfold remove_pairs at h
    rcases hrb : remove_both l r t with ⟨rb, tb⟩
    rw [hrb] at h
    cases rb with
    | error e =>
      simp at h
      exact absurd h.1 (remove_both_error_ne_unstable hrb)
    | ok u =>
      simp only at h
      rcases hl : alist_get tb l with _ | ll <;> rw [hl] at h
      · simp at h
      · rcases hr2 : alist_get tb r with _ | rl <;> rw [hr2] at h
        · simp at h
        · simp only at h
          by_cases hemp : (ll.isEmpty || rl.isEmpty) = true
          · rw [if_pos hemp] at h
            simp at h
            subst h
            refine ⟨0, by simp, ?_, l, r, by simp, ?_⟩
            · show remove_pairs ((l, r) :: rest.take 0) t = _
              simp [remove_pairs, hrb, hl, hr2, hemp]
            · have hor : ll = [] ∨ rl = [] := by
                cases ll with
                | nil => exact Or.inl rfl
                | cons x xs =>
                  cases rl with
                  | nil => exact Or.inr rfl
                  | cons y ys => simp at hemp
              rcases hor with he | he
              · exact Or.inl (he ▸ hl)
              · exact Or.inr (he ▸ hr2)
          · rw [if_neg hemp] at h
            rcases ih h with ⟨k, hk, htake, l', r', hget, hempty⟩
            refine ⟨k + 1, by simpa using Nat.succ_lt_succ hk, ?_, l', r', hget, hempty⟩
            show remove_pairs ((l, r) :: rest.take (k + 1)) t = _
            simp only [remove_pairs, hrb, hl, hr2]
            rw [if_neg hemp]
            exact htake

/-! ### Claim C3: the `unstable` fixture yields the failure value -/

/-- C3: `find_stable_pairings` on `{A:[B,C,D], B:[C,A,D], C:[A,B,D],
D:[B,A,C]}` signals no stable matching (it returns the
`UnstableTableError` instance, not a matching). -/
theorem C3_unstable_fixture :
    (find_stable_pairings unstableT 40).1 =
      .ok (.errInstance "No stable pairings possible") := by
  rfl

/-! ### Claim C4: the `stable_phase2` fixture -/

/-- C4: `find_stable_pairings` on `{A:[C,B,D], B:[A,C,D], C:[D,B,A],
D:[B,A,C]}` succeeds with the matching `A↦B, B↦A, C↦D, D↦C`, and the
Phase-2 rotation elimination really runs: after Phase 1 and trimming,
participant `B` still has three candidates. -/
theorem C4_stable_phase2 :
    (find_stable_pairings stable_phase2 40).1 =
      .ok (.matching [("A", ["B"]), ("B", ["A"]), ("C", ["D"]), ("D", ["C"])]) ∧
    ∃ rec, (make_proposals 40 stable_phase2).1 = .ok rec ∧
      ∃ l, alist_get
          (remove_trailing_prefs rec (make_proposals 40 stable_phase2).2).2 "B" = some l ∧
        1 < l.length := by
  refine ⟨rfl, [("A", (some "C", some "B")), ("B", (some "A", some "D")),
    ("C", (some "D", some "A")), ("D", (some "B", some "C"))], rfl,
    ["A", "C", "D"], rfl, by decide⟩

/-! ### Claim C5: the caller's mapping is mutated in place -/

/-- C5 counterexample: after a successful call on the `stable_phase1`
fixture, the caller-supplied mapping no longer holds its original lists,
refuting the claim that the algorithm operates on its own copy. -/
theorem C5_counterexample :
    (find_stable_pairings stable_phase1 40).2 ≠ stable_phase1 := by
  decide

/-- C5 (amended): `find_stable_pairings` operates on the caller's mapping
in place; on success the caller's dict ends up equal to the returned
matching (each list shrunk to the single partner), not the original input. -/
theorem C5_mutates_in_place (t : Table α) (fuel : Nat) (m s : Table α)
    (h : find_stable_pairings t fuel = (.ok (.matching m), s)) : s = m :=
  find_stable_pairings_matching_state h m rfl

theorem C5_witness :
    (find_stable_pairings stable_phase1 40).2 =
      [("A", ["B"]), ("B", ["A"]), ("C", ["D"]), ("D", ["C"])] :=
  C5_mutates_in_place stable_phase1 40
    [("A", ["B"]), ("B", ["A"]), ("C", ["D"]), ("D", ["C"])]
    [("A", ["B"]), ("B", ["A"]), ("C", ["D"]), ("D", ["C"])] rfl

/-! ### Claim C6: the failure values surfaced to the caller -/

/-- C6 counterexample: two failing inputs surface failure values of
different kinds — the Phase-1 failure on the `unstable` fixture returns
the `UnstableTableError(...)` instance, while the Phase-2 failure on
`phase2bad` returns the class `UnstableTableError` itself. -/
theorem C6_counterexample :
    (find_stable_pairings unstableT 40).1 =
      .ok (.errInstance "No stable pairings possible") ∧
    (find_stable_pairings phase2bad 40).1 = .ok .errClass ∧
    (SRRet.errClass : SRRet String) ≠ .errInstance "No stable pairings possible" := by
  refine ⟨rfl, rfl, by simp⟩

/-- C6 (amended): on every failing input no partial matching is returned,
but the two originating conditions are surfaced differently: a Phase-1
stability-check failure returns the error instance, while a Phase-2
exhausted list makes `find_stable_pairings` return the error class
passed through from `get_stable_match`; the two values differ. -/
theorem C6_failure_values :
    (∀ (t : Table α) (fuel : Nat) (rec : Record α) (t1 : Table α),
      make_proposals fuel t = (.ok rec, t1) → is_stable_table rec = false →
      (find_stable_pairings t fuel).1 = .ok (.errInstance "No stable pairings possible")) ∧
    (∀ (t : Table α) (fuel : Nat) (rec : Record α) (t1 t2 t3 : Table α) (u : Unit),
      make_proposals fuel t = (.ok rec, t1) → is_stable_table rec = true →
      remove_trailing_prefs rec t1 = (.ok u, t2) →
      get_stable_match fuel t2 = (.ok .errClass, t3) →
      (find_stable_pairings t fuel).1 = .ok .errClass) ∧
    ∀ (msg : String), (SRRet.errClass : SRRet α) ≠ .errInstance msg := by
  refine ⟨?_, ?_, by simp⟩
  · intro t fuel rec t1 h1 h2
    rw [fsp_phase1_failure h1 h2]
  · intro t fuel rec t1 t2 t3 u h1 h2 h3 h4
    rw [fsp_phase2_failure h1 h2 h3 h4]

theorem C6_witness :
    (find_stable_pairings unstableT 40).1 =
      .ok (.errInstance "No stable pairings possible") ∧
    (find_stable_pairings phase2bad 40).1 = .ok .errClass :=
  ⟨C6_failure_values.1 unstableT 40 _ _ rfl rfl,
   C6_failure_values.2.1 phase2bad 40 _ _ _ _ () rfl rfl rfl rfl⟩

/-! ### Claim C7: there is no entry validation -/

/-- C7 counterexample: the contract-violating input `{A:[B], B:[]}` is
not rejected by any entry validation — there is no
`InvalidPreferenceTableError` anywhere in the program — instead the run
dies inside Phase 1 with an uncaught `ValueError` from `list.index`. -/
theorem C7_counterexample :
    (find_stable_pairings malformed1 40).1 = .error .valueError ∧
    valid_table malformed1 = false := ⟨rfl, rfl⟩

/-- C7 (amended): inputs violating the contract are not validated or
rejected at entry; they run the algorithm directly and either surface an
uncaught Python exception (`{A:[B], B:[]}` raises `ValueError`) or even
return normally with an ill-formed result (`{A:[B,B], B:[A]}` returns a
"matching" in which B's list is empty). -/
theorem C7_no_entry_validation :
    (find_stable_pairings malformed1 40).1 = .error .valueError ∧
    (find_stable_pairings malformed2 40).1 =
      .ok (.matching [("A", ["B"]), ("B", [])]) ∧
    valid_table malformed1 = false ∧ valid_table malformed2 = false :=
  ⟨rfl, rfl, rfl, rfl⟩

/-! ### Claim C10: `remove_pairs` is not atomic on failure -/

/-- C10: when `remove_pairs` raises `UnstableTableError`, some prefix of
the pair list up to and including the emptying pair has been removed from
the shared table, the error state is exactly the state after that prefix
(no rollback), and the emptying pair left one side's list empty. -/
theorem C10_remove_pairs_not_atomic {ps : List (α × α)} {t t' : Table α}
    (h : remove_pairs ps t = (.error .unstable, t')) :
    ∃ k, k < ps.length ∧
      remove_pairs (ps.take (k + 1)) t = (.error .unstable, t') ∧
      ∃ l r, ps.get? k = some (l, r) ∧
        (alist_get t' l = some [] ∨ alist_get t' r = some []) :=
  remove_pairs_stops_at_empty h

/-! ### Record setters, validity consequences, and the initial invariant -/

theorem rec_set_to_keys (rec : Record α) (k : α) (v : Option α) :
    (rec_set_to rec k v).map Prod.fst = rec.map Prod.fst := by
  unfold rec_set_to
  split
  · exact alist_set_map_fst ..
  · rfl

theorem rec_set_from_keys (rec : Record α) (k : α) (v : Option α) :
    (rec_set_from rec k v).map Prod.fst = rec.map Prod.fst := by
  unfold rec_set_from
  split
  · exact alist_set_map_fst ..
  · rfl

theorem rec_out_set_from (rec : Record α) (k : α) (v : Option α) (a : α) :
    rec_out (rec_set_from rec k v) a = rec_out rec a := by
  unfold rec_set_from rec_out
  rcases hp : alist_get rec k with _ | p
  · simp only [hp]
  · rcases p with ⟨o, i⟩
    simp only [hp]
    by_cases hk : a = k
    · subst hk
      rw [alist_get_set_self, hp]
      simp
    · rw [alist_get_set_ne _ _ hk]

theorem rec_in_set_to (rec : Record α) (k : α) (v : Option α) (a : α) :
    rec_in (rec_set_to rec k v) a = rec_in rec a := by
  unfold rec_set_to rec_in
  rcases hp : alist_get rec k with _ | p
  · simp only [hp]
  · rcases p with ⟨o, i⟩
    simp only [hp]
    by_cases hk : a = k
    · subst hk
      rw [alist_get_set_self, hp]
      simp
    · rw [alist_get_set_ne _ _ hk]

theorem rec_in_set_from {rec : Record α} {k : α} {p : Option α × Option α}
    (hp : alist_get rec k = some p) (v : Option α) (a : α) :
    rec_in (rec_set_from rec k v) a = if k = a then v else rec_in rec a := by
  unfold rec_set_from rec_in
  rw [hp]
  rcases p with ⟨o, i⟩
  by_cases hk : k = a
  · subst hk
    rw [if_pos rfl, alist_get_set_self, hp]
    rfl
  · rw [if_neg hk, alist_get_set_ne _ _ (fun hc => hk hc.symm)]

theorem rec_out_set_to {rec : Record α} {k : α} {p : Option α × Option α}
    (hp : alist_get rec k = some p) (v : Option α) (a : α) :
    rec_out (rec_set_to rec k v) a = if k = a then v else rec_out rec a := by
  unfold rec_set_to rec_out
  rw [hp]
  rcases p with ⟨o, i⟩
  by_cases hk : k = a
  · subst hk
    rw [if_pos rfl, alist_get_set_self, hp]
    rfl
  · rw [if_neg hk, alist_get_set_ne _ _ (fun hc => hk hc.symm)]

theorem alist_get_map_pair (t : Table α) (c : Option α × Option α) (a : α) :
    alist_get (t.map (fun kv => (kv.1, c))) a = (alist_get t a).map (fun _ => c) := by
  induction t with
  | nil => rfl
  | cons kv rest ih =>
    rcases kv with ⟨k, v⟩
    simp only [List.map_cons]
    rw [alist_get_cons, alist_get_cons]
    by_cases hk : k = a
    · rw [if_pos hk, if_pos hk]
      rfl
    · rw [if_neg hk, if_neg hk]
      exact ih

theorem valid_keys_nodup {t0 : Table α} (h : valid_table t0 = true) :
    (t0.map Prod.fst).Nodup := by
  unfold valid_table at h
  exact of_decide_eq_true (Bool.and_eq_true .. ▸ h).1

theorem valid_get_perm {t0 : Table α} (h : valid_table t0 = true)
    {a : α} {l : List α} (ha : alist_get t0 a = some l) :
    l.Perm ((t0.map Prod.fst).erase a) := by
  unfold valid_table at h
  have h2 := (Bool.and_eq_true .. ▸ h).2
  have := List.all_eq_true.mp h2 _ (alist_get_mem ha)
  exact List.isPerm_iff.mp this

theorem valid_nodup {t0 : Table α} (h : valid_table t0 = true) : NodupTable t0 := by
  intro a l ha
  exact (valid_get_perm h ha).nodup_iff.mpr ((valid_keys_nodup h).erase a)

theorem valid_mem_iff {t0 : Table α} (h : valid_table t0 = true)
    {a : α} {l : List α} (ha : alist_get t0 a = some l) (b : α) :
    b ∈ l ↔ b ∈ t0.map Prod.fst ∧ b ≠ a := by
  rw [(valid_get_perm h ha).mem_iff,
    (valid_keys_nodup h).mem_erase_iff]
  exact and_comm

theorem valid_noself {t0 : Table α} (h : valid_table t0 = true)
    {a : α} {l : List α} (ha : alist_get t0 a = some l) : a ∉ l := by
  rw [valid_mem_iff h ha]
  simp

theorem valid_sym {t0 : Table α} (h : valid_table t0 = true) : SymTable t0 := by
  intro a b la lb ha hb hnot hmem
  have hbkey : b ∈ t0.map Prod.fst :=
    alist_get_isSome_iff.mp (by rw [hb]; rfl)
  have hakey : a ∈ t0.map Prod.fst :=
    alist_get_isSome_iff.mp (by rw [ha]; rfl)
  have hab : a ≠ b := ((valid_mem_iff h hb a).mp hmem).2
  exact hnot ((valid_mem_iff h ha b).mpr ⟨hbkey, Ne.symm hab⟩)

theorem inv_nodup {t0 t : Table α} {rec : Record α} {queue : List α}
    (V : valid_table t0 = true) (inv : Ph1Inv t0 t rec queue) : NodupTable t := by
  intro a l ha
  have hakey : a ∈ t0.map Prod.fst := by
    rw [← inv.keysEq]
    exact alist_get_isSome_iff.mp (by rw [ha]; rfl)
  obtain ⟨l0, hl0⟩ := Option.isSome_iff_exists.mp (alist_get_isSome_iff.mpr hakey)
  exact (inv.sub a l0 l hl0 ha).nodup (valid_nodup V a l0 hl0)

theorem inv_get0 {t0 t : Table α} {rec : Record α} {queue : List α}
    (inv : Ph1Inv t0 t rec queue) {a : α} {l : List α}
    (ha : alist_get t a = some l) :
    ∃ l0, alist_get t0 a = some l0 ∧ l.Sublist l0 := by
  have hakey : a ∈ t0.map Prod.fst := by
    rw [← inv.keysEq]
    exact alist_get_isSome_iff.mp (by rw [ha]; rfl)
  obtain ⟨l0, hl0⟩ := Option.isSome_iff_exists.mp (alist_get_isSome_iff.mpr hakey)
  exact ⟨l0, hl0, inv.sub a l0 l hl0 ha⟩

theorem inv_noself {t0 t : Table α} {rec : Record α} {queue : List α}
    (V : valid_table t0 = true) (inv : Ph1Inv t0 t rec queue) {a : α} {l : List α}
    (ha : alist_get t a = some l) : a ∉ l := by
  obtain ⟨l0, hl0, hsub⟩ := inv_get0 inv ha
  exact fun hmem => valid_noself V hl0 (hsub.mem hmem)

theorem ph1_init {t0 : Table α} (V : valid_table t0 = true) :
    Ph1Inv t0 t0 (t0.map (fun kv => (kv.1, (none, none)))) (t0.map Prod.fst) := by
  have hrec : ∀ a, alist_get (t0.map (fun kv => (kv.1, ((none : Option α), (none : Option α))))) a =
      (alist_get t0 a).map (fun _ => (none, none)) := fun a => alist_get_map_pair t0 _ a
  have hout : ∀ a, rec_out (t0.map (fun kv => (kv.1, ((none : Option α), (none : Option α))))) a = none := by
    intro a
    unfold rec_out
    rw [hrec a]
    rcases alist_get t0 a with _ | l <;> rfl
  have hin : ∀ a, rec_in (t0.map (fun kv => (kv.1, ((none : Option α), (none : Option α))))) a = none := by
    intro a
    unfold rec_in
    rw [hrec a]
    rcases alist_get t0 a with _ | l <;> rfl
  refine ⟨rfl, ?_, ?_, valid_sym V, ?_, ?_, ?_, valid_keys_nodup V, ?_, ?_⟩
  · rw [List.map_map]
    rfl
  · intro a l0 l h0 h
    rw [h0] at h
    obtain rfl : l0 = l := by simpa using h
    exact List.Sublist.refl l0
  · intro a b h
    rw [hout a] at h
    exact absurd h (by simp)
  · intro a b
    rw [hout a, hin b]
    simp
  · intro p _
    exact hout p
  · intro a b
    constructor
    · intro h
      rw [hout a] at h
      exact absurd h (by simp)
    · intro h
      rw [hin a] at h
      exact absurd h (by simp)
  · intro a b l0a la h0 ha hb hnot
    rw [h0] at ha
    obtain rfl : l0a = la := by simpa using ha
    exact absurd hb hnot

/-! ### Preservation of the rejection-safety predicate -/

theorem head?_erase_ne {l : List α} {d x : α} (h : l.head? = some d)
    (hne : d ≠ x) : (l.erase x).head? = some d := by
  cases l with
  | nil => simp at h
  | cons a rest =>
    obtain rfl : a = d := by simpa using h
    rw [List.erase_cons, if_neg (by simpa using hne)]
    rfl

theorem first_idx_head {l : List α} {d : α} (h : l.head? = some d) :
    first_idx l d = 0 := by
  cases l with
  | nil => simp at h
  | cons a rest =>
    obtain rfl : a = d := by simpa using h
    simp [first_idx]

theorem rejW_improve (t0 : Table α) {rec rec' : Record α} {c : α}
    (hsame : ∀ z, z ≠ c → rec_in rec' z = rec_in rec z)
    (hc : rec_in rec' c = rec_in rec c ∨ rec_in rec c = none ∨
      ∃ H Pv l0c, rec_in rec c = some H ∧ rec_in rec' c = some Pv ∧
        alist_get t0 c = some l0c ∧ Pv ∈ l0c ∧
        first_idx l0c Pv < first_idx l0c H) :
    ∀ x y, RejW t0 rec x y → RejW t0 rec' x y := by
  intro x y ⟨w, l0x, h0, hin, hmem, hlt⟩
  by_cases hxc : x = c
  · subst hxc
    rcases hc with hcsame | hnone | ⟨H, Pv, l0c, hH, hPv, h0c, hPmem, hPlt⟩
    · exact ⟨w, l0x, h0, hcsame.trans hin, hmem, hlt⟩
    · rw [hnone] at hin
      exact absurd hin (by simp)
    · rw [h0c] at h0
      obtain rfl : l0c = l0x := by simpa using h0
      rw [hH] at hin
      obtain rfl : H = w := by simpa using hin
      exact ⟨Pv, l0c, h0c, hPv, hPmem, hPlt.trans hlt⟩
  · exact ⟨w, l0x, h0, (hsame x hxc).trans hin, hmem, hlt⟩

theorem rec_set_from_eq {rec : Record α} {k : α} {o i : Option α}
    (hp : alist_get rec k = some (o, i)) (v : Option α) :
    rec_set_from rec k v = alist_set rec k (o, v) := by
  unfold rec_set_from
  rw [hp]

theorem rec_set_to_eq {rec : Record α} {k : α} {o i : Option α}
    (hp : alist_get rec k = some (o, i)) (v : Option α) :
    rec_set_to rec k v = alist_set rec k (v, i) := by
  unfold rec_set_to
  rw [hp]

theorem rejSafe_remove_both {t0 t t' : Table α} {rec rec' : Record α}
    {c d : α} {u : Unit}
    (hnd : NodupTable t)
    (hrm : remove_both c d t = (.ok u, t'))
    (hold : ∀ a b l0a la, alist_get t0 a = some l0a → alist_get t a = some la →
      b ∈ l0a → b ∉ la → RejW t0 rec a b ∨ RejW t0 rec b a)
    (himpr : ∀ x y, RejW t0 rec x y → RejW t0 rec' x y)
    (hnew : RejW t0 rec' c d) :
    ∀ a b l0a la, alist_get t0 a = some l0a → alist_get t' a = some la →
      b ∈ l0a → b ∉ la → RejW t0 rec' a b ∨ RejW t0 rec' b a := by
  obtain ⟨lc, ld, hne, hlc, hld, hdlc, hcld, hc', hd', hother, _⟩ :=
    remove_both_ok_desc hnd hrm
  intro a b l0a la' h0 ha' hb hnot
  by_cases hac : a = c
  · subst hac
    rw [ha'] at hc'
    obtain rfl : la' = lc.erase d := by simpa using hc'
    rw [(hnd a lc hlc).mem_erase_iff] at hnot
    push_neg at hnot
    by_cases hbd : b = d
    · subst hbd
      exact Or.inl hnew
    · rcases hold a b l0a lc h0 hlc hb (hnot hbd) with h | h
      · exact Or.inl (himpr _ _ h)
      · exact Or.inr (himpr _ _ h)
  · by_cases had : a = d
    · subst had
      rw [ha'] at hd'
      obtain rfl : la' = ld.erase c := by simpa using hd'
      rw [(hnd a ld hld).mem_erase_iff] at hnot
      push_neg at hnot
      by_cases hbc : b = c
      · subst hbc
        exact Or.inr hnew
      · rcases hold a b l0a ld h0 hld hb (hnot hbc) with h | h
        · exact Or.inl (himpr _ _ h)
        · exact Or.inr (himpr _ _ h)
    · rw [hother a hac had] at ha'
      rcases hold a b l0a la' h0 ha' hb hnot with h | h
      · exact Or.inl (himpr _ _ h)
      · exact Or.inr (himpr _ _ h)

/-! ### Invariant preservation through the three branches of the walk -/

theorem ph1_fresh {t0 t : Table α} {rec : Record α} {queue : List α}
    {P c : α} {pto : Option α} {pp : Option α × Option α} {rest : List α}
    (inv : Ph1Inv t0 t rec queue)
    (hsnapP : alist_get t P = some (c :: rest))
    (hcrec : alist_get rec c = some (pto, none))
    (hPrec : alist_get rec P = some pp)
    (hPout : rec_out rec P = none)
    (hPnotq : P ∉ queue)
    (hPc : P ≠ c) :
    Ph1Inv t0 t (rec_set_to (rec_set_from rec c (some P)) P (some c)) queue := by
  have hrec1P : alist_get (rec_set_from rec c (some P)) P = some pp := by
    rw [rec_set_from_eq hcrec, alist_get_set_ne _ _ hPc]
    exact hPrec
  have hout2 : ∀ a, rec_out (rec_set_to (rec_set_from rec c (some P)) P (some c)) a =
      if P = a then some c else rec_out rec a := by
    intro a
    rcases pp with ⟨ppo, ppi⟩
    rw [rec_out_set_to hrec1P, rec_out_set_from]
  have hin2 : ∀ a, rec_in (rec_set_to (rec_set_from rec c (some P)) P (some c)) a =
      if c = a then some P else rec_in rec a := by
    intro a
    rw [rec_in_set_to, rec_in_set_from hcrec]
  have hinc : rec_in rec c = none := by
    unfold rec_in
    rw [hcrec]
    rfl
  have hckey : c ∈ t0.map Prod.fst := by
    rw [← inv.recKeys]
    exact alist_get_isSome_iff.mp (by rw [hcrec]; rfl)
  have hPkey : P ∈ t0.map Prod.fst := by
    rw [← inv.keysEq]
    exact alist_get_isSome_iff.mp (by rw [hsnapP]; rfl)
  refine ⟨inv.keysEq, ?_, inv.sub, inv.sym, ?_, ?_, ?_, inv.queueNodup, ?_, ?_⟩
  · rw [rec_set_to_keys, rec_set_from_keys]
    exact inv.recKeys
  · intro a b h
    rw [hout2 a] at h
    split at h
    next hPa =>
      obtain rfl : c = b := by simpa using h
      exact ⟨c :: rest, hPa ▸ hsnapP, rfl⟩
    next hPa => exact inv.outFirst a b h
  · intro a b
    rw [hout2 a, hin2 b]
    by_cases hPa : P = a
    · subst hPa
      rw [if_pos rfl]
      by_cases hcb : c = b
      · subst hcb
        rw [if_pos rfl]
        simp
      · rw [if_neg hcb]
        constructor
        · intro h
          exact absurd (by simpa using h) (fun hc => hcb hc)
        · intro h
          have := (inv.outIn P b).mpr h
          rw [hPout] at this
          exact absurd this (by simp)
    · rw [if_neg hPa]
      by_cases hcb : c = b
      · subst hcb
        rw [if_pos rfl]
        constructor
        · intro h
          have := (inv.outIn a c).mp h
          rw [hinc] at this
          exact absurd this (by simp)
        · intro h
          exact absurd (by simpa using h : P = a) hPa
      · rw [if_neg hcb]
        exact inv.outIn a b
  · intro p hp
    rw [hout2 p, if_neg (fun hc => hPnotq (by rw [hc]; exact hp))]
    exact inv.queueOut p hp
  · intro a b
    constructor
    · intro h
      rw [hout2 a] at h
      split at h
      · obtain rfl : c = b := by simpa using h
        exact hckey
      · exact (inv.valKeys a b).1 h
    · intro h
      rw [hin2 a] at h
      split at h
      · obtain rfl : P = b := by simpa using h
        exact hPkey
      · exact (inv.valKeys a b).2 h
  · intro a b l0a la h0 ha hb hnot
    have himpr : ∀ x y, RejW t0 rec x y →
        RejW t0 (rec_set_to (rec_set_from rec c (some P)) P (some c)) x y :=
      rejW_improve t0
        (fun z hz => by rw [hin2 z, if_neg (fun hc => hz hc.symm)])
        (Or.inr (Or.inl hinc))
    rcases inv.rejSafe a b l0a la h0 ha hb hnot with h | h
    · exact Or.inl (himpr _ _ h)
    · exact Or.inr (himpr _ _ h)

theorem rec_out_isSome {rec : Record α} {a b : α}
    (h : rec_out rec a = some b) : ∃ p, alist_get rec a = some p := by
  unfold rec_out at h
  rcases hp : alist_get rec a with _ | p
  · rw [hp] at h
    simp at h
  · exact ⟨p, rfl⟩

theorem rec_in_isSome {rec : Record α} {a b : α}
    (h : rec_in rec a = some b) : ∃ p, alist_get rec a = some p := by
  unfold rec_in at h
  rcases hp : alist_get rec a with _ | p
  · rw [hp] at h
    simp at h
  · exact ⟨p, rfl⟩

theorem ph1_evict {t0 t t' : Table α} {rec : Record α} {queue : List α}
    {P c H : α} {pto : Option α} {pp : Option α × Option α}
    {rest lc : List α} {u : Unit}
    (V : valid_table t0 = true)
    (inv : Ph1Inv t0 t rec queue)
    (hsnapP : alist_get t P = some (c :: rest))
    (hc : alist_get t c = some lc)
    (hcrec : alist_get rec c = some (pto, some H))
    (hPrec : alist_get rec P = some pp)
    (hPout : rec_out rec P = none)
    (hPnotq : P ∉ queue)
    (hPmem : P ∈ lc) (hHmem : H ∈ lc)
    (hrank : first_idx lc P < first_idx lc H)
    (hrm : remove_both c H t = (.ok u, t')) :
    Ph1Inv t0 t'
      (rec_set_to (rec_set_to (rec_set_from rec c (some P)) P (some c)) H none)
      (H :: queue) := by
  have hinc : rec_in rec c = some H := by
    unfold rec_in
    rw [hcrec]
    rfl
  have houtH : rec_out rec H = some c := (inv.outIn H c).mpr hinc
  have hHP : H ≠ P := by
    intro hcont
    rw [hcont, hPout] at houtH
    exact Option.noConfusion houtH
  have hPc : P ≠ c := by
    intro hcont
    exact inv_noself V inv hc (hcont ▸ hPmem)
  have hHc : H ≠ c := by
    intro hcont
    exact inv_noself V inv hc (hcont ▸ hHmem)
  have hHnotq : H ∉ queue := by
    intro hq
    rw [inv.queueOut H hq] at houtH
    exact Option.noConfusion houtH
  have hndt : NodupTable t := inv_nodup V inv
  obtain ⟨pH, hpH⟩ := rec_out_isSome houtH
  have hrec1P : alist_get (rec_set_from rec c (some P)) P = some pp := by
    rw [rec_set_from_eq hcrec, alist_get_set_ne _ _ hPc]
    exact hPrec
  have hrec2H : alist_get (rec_set_to (rec_set_from rec c (some P)) P (some c)) H = some pH := by
    rcases pp with ⟨ppo, ppi⟩
    rw [rec_set_to_eq hrec1P, alist_get_set_ne _ _ hHP,
      rec_set_from_eq hcrec, alist_get_set_ne _ _ hHc]
    exact hpH
  have hout3 : ∀ a,
      rec_out (rec_set_to (rec_set_to (rec_set_from rec c (some P)) P (some c)) H none) a =
      if H = a then none else if P = a then some c else rec_out rec a := by
    intro a
    rcases pp with ⟨ppo, ppi⟩
    rw [rec_out_set_to hrec2H, rec_out_set_to hrec1P, rec_out_set_from]
  have hin3 : ∀ a,
      rec_in (rec_set_to (rec_set_to (rec_set_from rec c (some P)) P (some c)) H none) a =
      if c = a then some P else rec_in rec a := by
    intro a
    rw [rec_in_set_to, rec_in_set_to, rec_in_set_from hcrec]
  have hckey : c ∈ t0.map Prod.fst := by
    rw [← inv.recKeys]
    exact alist_get_isSome_iff.mp (by rw [hcrec]; rfl)
  have hPkey : P ∈ t0.map Prod.fst := by
    rw [← inv.keysEq]
    exact alist_get_isSome_iff.mp (by rw [hsnapP]; rfl)
  obtain ⟨l0c, h0c, hsubc⟩ := inv_get0 inv hc
  have hnd0c : l0c.Nodup := valid_nodup V c l0c h0c
  have hlt0 : first_idx l0c P < first_idx l0c H :=
    sublist_first_idx_lt hsubc hnd0c hPmem hHmem hrank
  have himpr : ∀ x y, RejW t0 rec x y →
      RejW t0 (rec_set_to (rec_set_to (rec_set_from rec c (some P)) P (some c)) H none) x y :=
    rejW_improve t0
      (fun z hz => by rw [hin3 z, if_neg (fun hcont => hz hcont.symm)])
      (Or.inr (Or.inr ⟨H, P, l0c, hinc, by rw [hin3 c, if_pos rfl], h0c,
        hsubc.mem hPmem, hlt0⟩))
  have hnew : RejW t0 (rec_set_to (rec_set_to (rec_set_from rec c (some P)) P (some c)) H none) c H :=
    ⟨P, l0c, h0c, by rw [hin3 c, if_pos rfl], hsubc.mem hPmem, hlt0⟩
  obtain ⟨lc₂, lH, hne, hlc₂, hlH, hHlc₂, hclH, hc', hH', hother, hkeys'⟩ :=
    remove_both_ok_desc hndt hrm
  obtain rfl : lc = lc₂ := by
    rw [hc] at hlc₂
    simpa using hlc₂
  refine ⟨hkeys'.trans inv.keysEq, ?_,
    remove_both_subtable hndt inv.sub hrm,
    remove_both_sym inv.sym hndt hrm, ?_, ?_, ?_, ?_, ?_, ?_⟩
  · rw [rec_set_to_keys, rec_set_to_keys, rec_set_from_keys]
    exact inv.recKeys
  · -- outFirst
    intro a b h
    rw [hout3 a] at h
    split at h
    · exact absurd h (by simp)
    next hHa =>
      split at h
      next hPa =>
        obtain rfl : c = b := by simpa using h
        refine ⟨c :: rest, ?_, rfl⟩
        rw [← hPa]
        rw [hother P hPc (fun hcont => hHP hcont.symm)]
        exact hsnapP
      next hPa =>
        obtain ⟨la, hla, hhead⟩ := inv.outFirst a b h
        by_cases hac : a = c
        · subst hac
          rw [hc] at hla
          obtain rfl : lc = la := by simpa using hla
          have hbH : b ≠ H := by
            intro hcont
            subst hcont
            rw [first_idx_head hhead] at hrank
            exact absurd hrank (by simp)
          exact ⟨lc.erase H, hc', head?_erase_ne hhead hbH⟩
        · rw [← hother a hac (fun hcont => hHa hcont.symm)] at hla
          exact ⟨la, hla, hhead⟩
  · -- outIn
    intro a b
    rw [hout3 a, hin3 b]
    by_cases hHa : H = a
    · rw [if_pos hHa]
      constructor
      · intro h
        exact absurd h (by simp)
      · intro h
        exfalso
        by_cases hcb : c = b
        · rw [if_pos hcb] at h
          have : P = a := by simpa using h
          exact hHP (hHa.trans this.symm)
        · rw [if_neg hcb] at h
          have := (inv.outIn a b).mpr h
          rw [← hHa, houtH] at this
          have : c = b := by simpa using this
          exact hcb this
    · rw [if_neg hHa]
      by_cases hPa : P = a
      · rw [if_pos hPa]
        by_cases hcb : c = b
        · rw [if_pos hcb]
          subst hcb hPa
          simp
        · rw [if_neg hcb]
          constructor
          · intro h
            exact absurd (by simpa using h : c = b) hcb
          · intro h
            have := (inv.outIn a b).mpr h
            rw [← hPa, hPout] at this
            exact absurd this (by simp)
      · rw [if_neg hPa]
        by_cases hcb : c = b
        · rw [if_pos hcb]
          constructor
          · intro h
            rw [← hcb] at h
            have := (inv.outIn a c).mp h
            rw [hinc] at this
            have : H = a := by simpa using this
            exact absurd this hHa
          · intro h
            exact absurd (by simpa using h : P = a) hPa
        · rw [if_neg hcb]
          exact inv.outIn a b
  · -- queueOut
    intro p hp
    rcases List.mem_cons.mp hp with rfl | hp'
    · rw [hout3 p, if_pos rfl]
    · rw [hout3 p, if_neg (fun hcont => hHnotq (by rw [hcont]; exact hp')),
        if_neg (fun hcont => hPnotq (by rw [hcont]; exact hp'))]
      exact inv.queueOut p hp'
  · -- queueNodup
    exact List.nodup_cons.mpr ⟨hHnotq, inv.queueNodup⟩
  · -- valKeys
    intro a b
    constructor
    · intro h
      rw [hout3 a] at h
      split at h
      · exact absurd h (by simp)
      · split at h
        · obtain rfl : c = b := by simpa using h
          exact hckey
        · exact (inv.valKeys a b).1 h
    · intro h
      rw [hin3 a] at h
      split at h
      · obtain rfl : P = b := by simpa using h
        exact hPkey
      · exact (inv.valKeys a b).2 h
  · -- rejSafe
    exact rejSafe_remove_both hndt hrm inv.rejSafe himpr hnew

theorem ph1_reject {t0 t t' : Table α} {rec : Record α} {queue : List α}
    {P c H : α} {pto : Option α} {rest lc : List α} {u : Unit}
    (V : valid_table t0 = true)
    (inv : Ph1Inv t0 t rec queue)
    (hsnapP : alist_get t P = some (c :: rest))
    (hc : alist_get t c = some lc)
    (hcrec : alist_get rec c = some (pto, some H))
    (hPout : rec_out rec P = none)
    (hPmem : P ∈ lc) (hHmem : H ∈ lc)
    (hrank : first_idx lc H ≤ first_idx lc P)
    (hrm : remove_both c P t = (.ok u, t')) :
    Ph1Inv t0 t' rec queue ∧ alist_get t' P = some rest := by
  have hinc : rec_in rec c = some H := by
    unfold rec_in
    rw [hcrec]
    rfl
  have houtH : rec_out rec H = some c := (inv.outIn H c).mpr hinc
  have hHP : H ≠ P := by
    intro hcont
    rw [hcont, hPout] at houtH
    exact Option.noConfusion houtH
  have hPc : P ≠ c := by
    intro hcont
    exact inv_noself V inv hc (hcont ▸ hPmem)
  have hstrict : first_idx lc H < first_idx lc P :=
    Nat.lt_of_le_of_ne hrank (fun hcont => hHP (first_idx_inj hHmem hPmem hcont))
  have hndt : NodupTable t := inv_nodup V inv
  obtain ⟨l0c, h0c, hsubc⟩ := inv_get0 inv hc
  have hnd0c : l0c.Nodup := valid_nodup V c l0c h0c
  have hlt0 : first_idx l0c H < first_idx l0c P :=
    sublist_first_idx_lt hsubc hnd0c hHmem hPmem hstrict
  have hnew : RejW t0 rec c P := ⟨H, l0c, h0c, hinc, hsubc.mem hHmem, hlt0⟩
  obtain ⟨lc₂, lP, hne, hlc₂, hlP, hPlc₂, hclP, hc', hP', hother, hkeys'⟩ :=
    remove_both_ok_desc hndt hrm
  obtain rfl : lc = lc₂ := by
    rw [hc] at hlc₂
    simpa using hlc₂
  obtain rfl : (c :: rest) = lP := by
    rw [hsnapP] at hlP
    simpa using hlP
  refine ⟨⟨hkeys'.trans inv.keysEq, inv.recKeys,
    remove_both_subtable hndt inv.sub hrm,
    remove_both_sym inv.sym hndt hrm, ?_, inv.outIn, inv.queueOut,
    inv.queueNodup, inv.valKeys, ?_⟩, ?_⟩
  · -- outFirst
    intro a b h
    obtain ⟨la, hla, hhead⟩ := inv.outFirst a b h
    by_cases hac : a = c
    · subst hac
      rw [hc] at hla
      obtain rfl : lc = la := by simpa using hla
      have hbP : b ≠ P := by
        intro hcont
        subst hcont
        rw [first_idx_head hhead] at hstrict
        exact absurd hstrict (by simp)
      exact ⟨lc.erase P, hc', head?_erase_ne hhead hbP⟩
    · by_cases haP : a = P
      · subst haP
        rw [hPout] at h
        exact absurd h (by simp)
      · rw [← hother a hac haP] at hla
        exact ⟨la, hla, hhead⟩
  · -- rejSafe
    exact rejSafe_remove_both hndt hrm inv.rejSafe (fun x y hxy => hxy) hnew
  · -- the walker's list is now exactly the rest of the snapshot
    rw [hP']
    rw [List.erase_cons_head]

theorem walk_inv {t0 : Table α} (V : valid_table t0 = true)
    (snap : List α) :
    ∀ (t : Table α) (rec : Record α) (queue : List α) (P : α)
      (rec' : Record α) (queue' : List α) (t' : Table α),
      Ph1Inv t0 t rec queue →
      alist_get t P = some snap →
      rec_out rec P = none →
      P ∉ queue →
      propose_walk P snap t rec queue = (.ok (rec', queue'), t') →
      Ph1Inv t0 t' rec' queue' := by
  induction snap with
  | nil =>
    intro t rec queue P rec' queue' t' inv hsnap hPout hPnotq h
    unfold propose_walk at h
    simp at h
    obtain ⟨⟨h1, h2⟩, h3⟩ := h
    subst h1 h2 h3
    exact inv
  | cons c rest ih =>
    intro t rec queue P rec' queue' t' inv hsnap hPout hPnotq h
    unfold propose_walk at h
    rcases hc : alist_get t c with _ | lc <;> simp only [hc] at h
    · simp at h
    rcases hidx : pyIndex lc P with e | rankP <;> simp only [hidx] at h
    · simp at h
    obtain ⟨hPmem, hrankP⟩ := pyIndex_ok_iff.mp hidx
    have hPc : P ≠ c := fun hcont => inv_noself V inv hc (hcont ▸ hPmem)
    rcases hcrec : alist_get rec c with _ | ⟨pto, pfrom⟩
    · simp only [hcrec] at h
      simp at h
    rcases hPrec : alist_get rec P with _ | pp
    · simp only [hcrec, hPrec] at h
      simp at h
    cases pfrom with
    | none =>
      simp only [hcrec, hPrec] at h
      simp at h
      obtain ⟨⟨h1, h2⟩, h3⟩ := h
      subst h1 h2 h3
      exact ph1_fresh inv hsnap hcrec hPrec hPout hPnotq hPc
    | some H =>
      simp only [hcrec, hPrec] at h
      rcases hidxH : pyIndex lc H with e | rankH <;> simp only [hidxH] at h
      · simp at h
      obtain ⟨hHmem, hrankH⟩ := pyIndex_ok_iff.mp hidxH
      by_cases hgt : rankH > rankP
      · rw [if_pos hgt] at h
        rcases hrm : remove_both c H t with ⟨rb, trm⟩
        cases rb with
        | error e =>
          simp only [hrm] at h
          simp at h
        | ok u =>
          simp only [hrm] at h
          simp at h
          obtain ⟨⟨h1, h2⟩, h3⟩ := h
          subst h1 h2 h3
          exact ph1_evict V inv hsnap hc hcrec hPrec hPout hPnotq
            hPmem hHmem (by rw [hrankP, hrankH] at hgt; exact hgt) hrm
      · rw [if_neg hgt] at h
        rcases hrm : remove_both c P t with ⟨rb, trm⟩
        cases rb with
        | error e =>
          simp only [hrm] at h
          simp at h
        | ok u =>
          simp only [hrm] at h
          have hle : first_idx lc H ≤ first_idx lc P := by
            have hx := Nat.le_of_not_lt hgt
            rw [hrankP, hrankH] at hx
            exact hx
          obtain ⟨inv2, hsnap2⟩ :=
            ph1_reject V inv hsnap hc hcrec hPout hPmem hHmem hle hrm
          exact ih trm rec queue P rec' queue' t' inv2 hsnap2 hPout hPnotq h

theorem mp_loop_inv {t0 : Table α} (V : valid_table t0 = true) (fuel : Nat) :
    ∀ (queue : List α) (t : Table α) (rec rec' : Record α) (t' : Table α),
      Ph1Inv t0 t rec queue →
      mp_loop fuel queue t rec = (.ok rec', t') →
      Ph1Inv t0 t' rec' [] := by
  induction fuel with
  | zero =>
    intro queue t rec rec' t' inv h
    unfold mp_loop at h
    simp at h
  | succ f ihf =>
    intro queue t rec rec' t' inv h
    cases queue with
    | nil =>
      unfold mp_loop at h
      simp at h
      obtain ⟨h1, h2⟩ := h
      subst h1 h2
      exact inv
    | cons P restq =>
      unfold mp_loop at h
      rcases hsnap : alist_get t P with _ | snap <;> simp only [hsnap] at h
      · simp at h
      rcases hw : propose_walk P snap t rec restq with ⟨rw_, tw⟩
      cases rw_ with
      | error e =>
        simp only [hw] at h
        simp at h
      | ok pr =>
        rcases pr with ⟨recw, queuew⟩
        simp only [hw] at h
        have hPout : rec_out rec P = none := inv.queueOut P (List.mem_cons_self ..)
        have hPnotq : P ∉ restq := (List.nodup_cons.mp inv.queueNodup).1
        have invq : Ph1Inv t0 t rec restq :=
          { inv with
            queueOut := fun p hp => inv.queueOut p (List.mem_cons_of_mem _ hp),
            queueNodup := (List.nodup_cons.mp inv.queueNodup).2 }
        have invw := walk_inv V snap t rec restq P recw queuew tw invq hsnap
          hPout hPnotq hw
        exact ihf queuew tw recw rec' t' invw h

theorem make_proposals_inv {t0 : Table α} {fuel : Nat} {rec' : Record α}
    {t' : Table α} (V : valid_table t0 = true)
    (h : make_proposals fuel t0 = (.ok rec', t')) :
    Ph1Inv t0 t' rec' [] := by
  unfold make_proposals at h
  exact mp_loop_inv V fuel _ t0 _ rec' t' (ph1_init V) h

/-! ### Semantics of the stability check -/

theorem ist_go_all_some {vals : List (Option α × Option α)} {ps es : List α}
    (h : ist_go vals ps es = true) : ∀ v ∈ vals, ∃ o i, v = (some o, some i) := by
  induction vals generalizing ps es with
  | nil => simp
  | cons v rest ih =>
    rcases v with ⟨o?, i?⟩
    unfold ist_go at h
    cases o? with
    | none => simp at h
    | some o =>
      cases i? with
      | none => simp at h
      | some i =>
        simp only at h
        split at h
        · simp at h
        · intro w hw
          rcases List.mem_cons.mp hw with rfl | hw'
          · exact ⟨o, i, rfl⟩
          · exact ih h w hw'

theorem ist_go_outs {vals : List (Option α × Option α)} {ps es : List α}
    (h : ist_go vals ps es = true) :
    (vals.filterMap Prod.fst).Nodup ∧ ∀ x ∈ vals.filterMap Prod.fst, x ∉ es := by
  induction vals generalizing ps es with
  | nil => simp
  | cons v rest ih =>
    rcases v with ⟨o?, i?⟩
    unfold ist_go at h
    cases o? with
    | none => simp at h
    | some o =>
      cases i? with
      | none => simp at h
      | some i =>
        simp only at h
        split at h
        · simp at h
        next hcond =>
          push_neg at hcond
          obtain ⟨hnodup, hnotin⟩ := ih h
          have hfm : List.filterMap Prod.fst
              (((some o, some i) : Option α × Option α) :: rest) =
              o :: List.filterMap Prod.fst rest := rfl
          rw [hfm]
          constructor
          · refine List.nodup_cons.mpr ⟨?_, hnodup⟩
            intro hmem
            exact (hnotin o hmem) (List.mem_cons_self ..)
          · intro x hx
            rcases List.mem_cons.mp hx with rfl | hx'
            · exact hcond.2
            · exact fun hxe => hnotin x hx' (List.mem_cons_of_mem _ hxe)

theorem filterMap_fst_length {vals : List (Option α × Option α)}
    (h : ∀ v ∈ vals, ∃ o i, v = (some o, some i)) :
    (vals.filterMap Prod.fst).length = vals.length := by
  induction vals with
  | nil => rfl
  | cons v rest ih =>
    obtain ⟨o, i, rfl⟩ := h v (List.mem_cons_self ..)
    have hfm : List.filterMap Prod.fst
        (((some o, some i) : Option α × Option α) :: rest) =
        o :: List.filterMap Prod.fst rest := rfl
    rw [hfm, List.length_cons, List.length_cons,
      ih (fun w hw => h w (List.mem_cons_of_mem _ hw))]

theorem stable_record_complete {t0 t1 : Table α} {rec : Record α}
    (V : valid_table t0 = true)
    (inv : Ph1Inv t0 t1 rec [])
    (hst : is_stable_table rec = true) :
    (∀ a, a ∈ t0.map Prod.fst → ∃ oa ia, alist_get rec a = some (some oa, some ia)) ∧
    (∀ a, a ∈ t0.map Prod.fst → ∃ z, rec_out rec z = some a) := by
  have krec : (rec.map Prod.fst).Nodup := by
    rw [inv.recKeys]
    exact valid_keys_nodup V
  have hst' : ist_go (rec.map Prod.snd) [] [] = true := hst
  have hallsome := ist_go_all_some hst'
  constructor
  · intro a ha
    have : a ∈ rec.map Prod.fst := by rw [inv.recKeys]; exact ha
    obtain ⟨p, hp⟩ := Option.isSome_iff_exists.mp (alist_get_isSome_iff.mpr this)
    have hmem : p ∈ rec.map Prod.snd := by
      have := alist_get_mem hp
      exact List.mem_map_of_mem Prod.snd this
    obtain ⟨o, i, rfl⟩ := hallsome p hmem
    exact ⟨o, i, hp⟩
  · intro a ha
    obtain ⟨hnodup, _⟩ := ist_go_outs hst'
    have hsubkeys : (rec.map Prod.snd).filterMap Prod.fst ⊆ t0.map Prod.fst := by
      intro x hx
      obtain ⟨v, hv, hvx⟩ := List.mem_filterMap.mp hx
      obtain ⟨⟨k, w⟩, hkw, hwv⟩ := List.mem_map.mp hv
      have hget : alist_get rec k = some w := mem_alist_get krec hkw
      have hwv2 : w = v := hwv
      subst hwv2
      have : rec_out rec k = some x := by
        unfold rec_out
        rw [hget]
        exact hvx
      exact (inv.valKeys k x).1 this
    have hlen : (t0.map Prod.fst).length ≤ ((rec.map Prod.snd).filterMap Prod.fst).length := by
      rw [filterMap_fst_length hallsome]
      have h1 : (rec.map Prod.snd).length = rec.length := List.length_map ..
      have h2 : (t0.map Prod.fst).length = (rec.map Prod.fst).length := by
        rw [inv.recKeys]
      rw [h1, h2, List.length_map]
    have hperm := (List.subperm_of_subset hnodup hsubkeys).perm_of_length_le hlen
    have hmemout : a ∈ (rec.map Prod.snd).filterMap Prod.fst := hperm.mem_iff.mpr ha
    obtain ⟨v, hv, hvx⟩ := List.mem_filterMap.mp hmemout
    obtain ⟨⟨k, w⟩, hkw, hwv⟩ := List.mem_map.mp hv
    have hwv2 : w = v := hwv
    subst hwv2
    refine ⟨k, ?_⟩
    unfold rec_out
    rw [mem_alist_get krec hkw]
    exact hvx

/-! ### The trimming pass `remove_trailing_prefs` -/

theorem head?_take_succ (l : List α) (n : Nat) :
    (l.take (n + 1)).head? = l.head? := by
  cases l <;> rfl

theorem mem_take_of_first_idx {l : List α} {x : α} {n : Nat} (hx : x ∈ l)
    (h : first_idx l x < n) : x ∈ l.take n := by
  induction l generalizing n with
  | nil => simp at hx
  | cons a rest ih =>
    cases n with
    | zero => simp at h
    | succ m =>
      unfold first_idx at h
      split at h
      next heq => simp [heq]
      next hne =>
        have hx' : x ∈ rest := by
          rcases List.mem_cons.mp hx with h1 | h1
          · exact absurd h1.symm hne
          · exact h1
        simp only [List.take_succ_cons, List.mem_cons]
        exact Or.inr (ih hx' (Nat.lt_of_succ_lt_succ h))

theorem mem_drop_of_first_idx {l : List α} {x : α} {n : Nat} (hx : x ∈ l)
    (h : n ≤ first_idx l x) : x ∈ l.drop n := by
  induction l generalizing n with
  | nil => simp at hx
  | cons a rest ih =>
    cases n with
    | zero => simpa using hx
    | succ m =>
      unfold first_idx at h
      split at h
      next heq => exact absurd h (by simp)
      next hne =>
        have hx' : x ∈ rest := by
          rcases List.mem_cons.mp hx with h1 | h1
          · exact absurd h1.symm hne
          · exact h1
        simpa using ih hx' (Nat.le_of_succ_le_succ h)

theorem sublist_first_idx_le {l l0 : List α} (hs : l.Sublist l0)
    (hnd : l0.Nodup) {x y : α} (hx : x ∈ l) (hy : y ∈ l)
    (h : first_idx l x ≤ first_idx l y) : first_idx l0 x ≤ first_idx l0 y := by
  by_cases hxy : x = y
  · subst hxy
    exact Nat.le_refl _
  · have hlt : first_idx l x < first_idx l y :=
      Nat.lt_of_le_of_ne h (fun hc => hxy (first_idx_inj hx hy hc))
    exact Nat.le_of_lt (sublist_first_idx_lt hs hnd hx hy hlt)

theorem rtp_pass_spec {y : α} (S : List α) :
    ∀ (t t' : Table α) (u : Unit), S.Nodup →
      rtp_successor_pass y S t = (.ok u, t') →
      (∀ s ∈ S, ∀ ls, alist_get t s = some ls →
        alist_get t' s = some (ls.erase y)) ∧
      (∀ x, x ∉ S → alist_get t' x = alist_get t x) ∧
      t'.map Prod.fst = t.map Prod.fst := by
  induction S with
  | nil =>
    intro t t' u _ h
    unfold rtp_successor_pass at h
    simp at h
    subst h
    exact ⟨by simp, fun x _ => rfl, rfl⟩
  | cons s rest ih =>
    intro t t' u hnd h
    have hsrest : s ∉ rest := (List.nodup_cons.mp hnd).1
    have hndrest : rest.Nodup := (List.nodup_cons.mp hnd).2
    unfold rtp_successor_pass at h
    rcases hs : alist_get t s with _ | ls <;> simp only [hs] at h
    · simp at h
    by_cases hmem : y ∈ ls
    · rw [if_pos hmem] at h
      obtain ⟨h1, h2, h3⟩ := ih _ t' u hndrest h
      refine ⟨?_, ?_, ?_⟩
      · intro s' hs' ls' hget
        rcases List.mem_cons.mp hs' with rfl | hs''
        · rw [hs] at hget
          obtain rfl : ls = ls' := by simpa using hget
          rw [h2 s' hsrest, alist_get_set_self, hs]
          rfl
        · have hne : s' ≠ s := fun hc => hsrest (hc ▸ hs'')
          rw [← alist_get_set_ne t (ls.erase y) hne] at hget
          exact h1 s' hs'' ls' hget
      · intro x hx
        have hxs : x ≠ s := fun hc => hx (hc ▸ List.mem_cons_self ..)
        have hxrest : x ∉ rest := fun hc => hx (List.mem_cons_of_mem _ hc)
        rw [h2 x hxrest, alist_get_set_ne t _ hxs]
      · rw [h3, alist_set_map_fst]
    · rw [if_neg hmem] at h
      obtain ⟨h1, h2, h3⟩ := ih t t' u hndrest h
      refine ⟨?_, ?_, h3⟩
      · intro s' hs' ls' hget
        rcases List.mem_cons.mp hs' with rfl | hs''
        · rw [hs] at hget
          obtain rfl : ls = ls' := by simpa using hget
          rw [h2 s' hsrest, hs, List.erase_of_not_mem hmem]
        · exact h1 s' hs'' ls' hget
      · intro x hx
        exact h2 x (fun hc => hx (List.mem_cons_of_mem _ hc))

theorem subtable_nodup {t0 t : Table α} (V : valid_table t0 = true)
    (hsub : SubTable t0 t) (hkeys : t.map Prod.fst = t0.map Prod.fst) :
    NodupTable t := by
  intro a l ha
  have hakey : a ∈ t0.map Prod.fst := by
    rw [← hkeys]
    exact alist_get_isSome_iff.mp (by rw [ha]; rfl)
  obtain ⟨l0, hl0⟩ := Option.isSome_iff_exists.mp (alist_get_isSome_iff.mpr hakey)
  exact (hsub a l0 l hl0 ha).nodup (valid_nodup V a l0 hl0)

theorem subtable_get0 {t0 t : Table α} (hsub : SubTable t0 t)
    (hkeys : t.map Prod.fst = t0.map Prod.fst) {a : α} {l : List α}
    (ha : alist_get t a = some l) :
    ∃ l0, alist_get t0 a = some l0 ∧ l.Sublist l0 := by
  have hakey : a ∈ t0.map Prod.fst := by
    rw [← hkeys]
    exact alist_get_isSome_iff.mp (by rw [ha]; rfl)
  obtain ⟨l0, hl0⟩ := Option.isSome_iff_exists.mp (alist_get_isSome_iff.mpr hakey)
  exact ⟨l0, hl0, hsub a l0 l hl0 ha⟩

theorem rtp_step_spec {t0 t : Table α} {rec : Record α} {z y : α}
    {ly : List α} {u : Unit} {t' : Table α}
    (V : valid_table t0 = true)
    (hOutIn : ∀ a b, rec_out rec a = some b ↔ rec_in rec b = some a)
    (inv : TrimInv t0 t rec)
    (hzrec : rec_out rec z = some y)
    (hy : alist_get t y = some ly)
    (hzmem : z ∈ ly)
    (hpass : rtp_successor_pass y (ly.drop (first_idx ly z + 1))
      (alist_set t y (ly.take (first_idx ly z + 1))) = (.ok u, t')) :
    TrimInv t0 t' rec ∧ SubTable t t' ∧
    (∀ l0y l'y, alist_get t0 y = some l0y → alist_get t' y = some l'y →
      AllAtMost l0y l'y z) := by
  have hndt : NodupTable t := subtable_nodup V inv.sub inv.keysEq
  have hnd_ly : ly.Nodup := hndt y ly hy
  obtain ⟨l0y, h0y, hsuby⟩ := subtable_get0 inv.sub inv.keysEq hy
  have hnd0y : l0y.Nodup := valid_nodup V y l0y h0y
  have hynoself : y ∉ ly := fun hm => valid_noself V h0y (hsuby.mem hm)
  have hySnotin : y ∉ ly.drop (first_idx ly z + 1) :=
    fun hm => hynoself (List.mem_of_mem_drop hm)
  have hSnodup : (ly.drop (first_idx ly z + 1)).Nodup :=
    (List.drop_sublist ..).nodup hnd_ly
  have hzS : z ∉ ly.drop (first_idx ly z + 1) := by
    intro hm
    have := first_idx_mem_drop hnd_ly hm
    omega
  have hinzy : rec_in rec y = some z := (hOutIn z y).mp hzrec
  obtain ⟨hp1, hp2, hp3⟩ := rtp_pass_spec _ _ t' u hSnodup hpass
  have ht1y : alist_get (alist_set t y (ly.take (first_idx ly z + 1))) y =
      some (ly.take (first_idx ly z + 1)) := by
    rw [alist_get_set_self, hy]
    rfl
  have hty' : alist_get t' y = some (ly.take (first_idx ly z + 1)) := by
    rw [hp2 y hySnotin]
    exact ht1y
  have hts' : ∀ s ∈ ly.drop (first_idx ly z + 1), ∀ ls,
      alist_get t s = some ls → alist_get t' s = some (ls.erase y) := by
    intro s hs ls hls
    have hsy : s ≠ y := fun hc => hySnotin (hc ▸ hs)
    refine hp1 s hs ls ?_
    rw [alist_get_set_ne t _ hsy]
    exact hls
  have htx' : ∀ x, x ≠ y → x ∉ ly.drop (first_idx ly z + 1) →
      alist_get t' x = alist_get t x := by
    intro x hxy hxS
    rw [hp2 x hxS, alist_get_set_ne t _ hxy]
  have hkeys' : t'.map Prod.fst = t.map Prod.fst := by
    rw [hp3, alist_set_map_fst]
  have hchar : ∀ v lv' w, alist_get t' v = some lv' →
      ∃ lv, alist_get t v = some lv ∧
        (w ∈ lv' ↔ w ∈ lv ∧ ¬(v = y ∧ w ∈ ly.drop (first_idx ly z + 1)) ∧
          ¬(v ∈ ly.drop (first_idx ly z + 1) ∧ w = y)) := by
    intro v lv' w hv
    by_cases hvy : v = y
    · subst hvy
      rw [hty'] at hv
      obtain rfl : ly.take (first_idx ly z + 1) = lv' := by simpa using hv
      refine ⟨ly, hy, ?_⟩
      constructor
      · intro hw
        refine ⟨List.mem_of_mem_take hw, ?_, ?_⟩
        · rintro ⟨-, hwS⟩
          have h1 := first_idx_mem_take hw
          have h2 := first_idx_mem_drop hnd_ly hwS
          omega
        · rintro ⟨hvS, -⟩
          exact hySnotin hvS
      · rintro ⟨hw, hc1, -⟩
        have hwS : w ∉ ly.drop (first_idx ly z + 1) := fun hm => hc1 ⟨rfl, hm⟩
        have : first_idx ly w < first_idx ly z + 1 := by
          by_contra hge
          exact hwS (mem_drop_of_first_idx hw (Nat.le_of_not_lt hge))
        exact mem_take_of_first_idx hw this
    · by_cases hvS : v ∈ ly.drop (first_idx ly z + 1)
      · have hvly : v ∈ ly := List.mem_of_mem_drop hvS
        have hvkey : v ∈ t.map Prod.fst := by
          rw [inv.keysEq]
          exact ((valid_mem_iff V h0y v).mp (hsuby.mem hvly)).1
        obtain ⟨lv, hvt⟩ := Option.isSome_iff_exists.mp (alist_get_isSome_iff.mpr hvkey)
        refine ⟨lv, hvt, ?_⟩
        rw [hts' v hvS lv hvt] at hv
        obtain rfl : lv.erase y = lv' := by simpa using hv
        rw [(hndt v lv hvt).mem_erase_iff]
        constructor
        · rintro ⟨hwy, hw⟩
          exact ⟨hw, fun hc => hvy hc.1, fun hc => hwy hc.2⟩
        · rintro ⟨hw, -, hc2⟩
          exact ⟨fun hwy => hc2 ⟨hvS, hwy⟩, hw⟩
      · rw [htx' v hvy hvS] at hv
        exact ⟨lv', hv, by simp [hvy, hvS]⟩
  have hsym' : SymTable t' := by
    intro x w lx' lw' hx hw hnotin hxin
    obtain ⟨lx, hlx, hiffx⟩ := hchar x lx' w hx
    obtain ⟨lw, hlw, hiffw⟩ := hchar w lw' x hw
    obtain ⟨hxlw, hc1, hc2⟩ := hiffw.mp hxin
    have hwlx : w ∈ lx := (sym_mem_iff inv.sym hlx hlw).mpr hxlw
    exact hnotin (hiffx.mpr ⟨hwlx,
      fun hc => hc2 ⟨hc.2, hc.1⟩, fun hc => hc1 ⟨hc.2, hc.1⟩⟩)
  have hsubtt' : SubTable t t' := by
    intro a la la' ha ha'
    by_cases hay : a = y
    · subst hay
      rw [hy] at ha
      obtain rfl : ly = la := by simpa using ha
      rw [hty'] at ha'
      obtain rfl : ly.take (first_idx ly z + 1) = la' := by simpa using ha'
      exact List.take_sublist ..
    · by_cases haS : a ∈ ly.drop (first_idx ly z + 1)
      · rw [hts' a haS la ha] at ha'
        obtain rfl : la.erase y = la' := by simpa using ha'
        exact List.erase_sublist ..
      · rw [htx' a hay haS, ha] at ha'
        obtain rfl : la = la' := by simpa using ha'
        exact List.Sublist.refl la
  have hsub0 : SubTable t0 t' := by
    intro a l0 la' h0 ha'
    have hakey : a ∈ t.map Prod.fst := by
      rw [← hkeys']
      exact alist_get_isSome_iff.mp (by rw [ha']; rfl)
    obtain ⟨la, hla⟩ := Option.isSome_iff_exists.mp (alist_get_isSome_iff.mpr hakey)
    exact (hsubtt' a la la' hla ha').trans (inv.sub a l0 la h0 hla)
  refine ⟨⟨hkeys'.trans inv.keysEq, hsub0, hsym', ?_, ?_, ?_⟩, hsubtt', ?_⟩
  · -- outHead
    intro a b hab
    obtain ⟨la, hla, hhead⟩ := inv.outHead a b hab
    by_cases hay : a = y
    · subst hay
      rw [hy] at hla
      obtain rfl : ly = la := by simpa using hla
      refine ⟨ly.take (first_idx ly z + 1), hty', ?_⟩
      rw [head?_take_succ]
      exact hhead
    · by_cases haS : a ∈ ly.drop (first_idx ly z + 1)
      · have hby : b ≠ y := by
          intro hcont
          subst hcont
          have hin2 : rec_in rec b = some a := (hOutIn a b).mp hab
          rw [hinzy] at hin2
          obtain rfl : z = a := by simpa using hin2
          exact hzS haS
        exact ⟨la.erase y, hts' a haS la hla, head?_erase_ne hhead hby⟩
      · exact ⟨la, by rw [htx' a hay haS]; exact hla, hhead⟩
  · -- inMem
    intro a c hac
    obtain ⟨la, hla, hcmem⟩ := inv.inMem a c hac
    by_cases hay : a = y
    · subst hay
      rw [hinzy] at hac
      obtain rfl : z = c := by simpa using hac
      rw [hy] at hla
      obtain rfl : ly = la := by simpa using hla
      exact ⟨ly.take (first_idx ly z + 1), hty',
        mem_take_of_first_idx hzmem (by omega)⟩
    · by_cases haS : a ∈ ly.drop (first_idx ly z + 1)
      · have hcy : c ≠ y := by
          intro hcont
          subst hcont
          have hout2 : rec_out rec c = some a := (hOutIn c a).mpr hac
          obtain ⟨lc2, hlc2, hhead2⟩ := inv.outHead c a hout2
          rw [hy] at hlc2
          obtain rfl : ly = lc2 := by simpa using hlc2
          have h1 : first_idx ly a = 0 := first_idx_head hhead2
          have h2 := first_idx_mem_drop hnd_ly haS
          omega
        exact ⟨la.erase y, hts' a haS la hla,
          (List.mem_erase_of_ne hcy).mpr hcmem⟩
      · exact ⟨la, by rw [htx' a hay haS]; exact hla, hcmem⟩
  · -- rejSafe
    intro a b l0a la' h0 ha' hb hnot
    obtain ⟨la, hla, hiff⟩ := hchar a la' b ha'
    by_cases hbla : b ∈ la
    · have hdis : (a = y ∧ b ∈ ly.drop (first_idx ly z + 1)) ∨
          (a ∈ ly.drop (first_idx ly z + 1) ∧ b = y) := by
        by_contra hcon
        push_neg at hcon
        refine hnot (hiff.mpr ⟨hbla, ?_, ?_⟩)
        · rintro ⟨h1, h2⟩
          exact (hcon.1 h1) h2
        · rintro ⟨h1, h2⟩
          exact (hcon.2 h1) h2
      rcases hdis with ⟨rfl, hbS⟩ | ⟨haS, rfl⟩
      · rw [h0y] at h0
        obtain rfl : l0y = l0a := by simpa using h0
        refine Or.inl ⟨z, l0y, h0y, hinzy, hsuby.mem hzmem, ?_⟩
        have hbly : b ∈ ly := List.mem_of_mem_drop hbS
        have hgt : first_idx ly z < first_idx ly b := by
          have := first_idx_mem_drop hnd_ly hbS
          omega
        exact sublist_first_idx_lt hsuby hnd0y hzmem hbly hgt
      · refine Or.inr ⟨z, l0y, h0y, hinzy, hsuby.mem hzmem, ?_⟩
        have haly : a ∈ ly := List.mem_of_mem_drop haS
        have hgt : first_idx ly z < first_idx ly a := by
          have := first_idx_mem_drop hnd_ly haS
          omega
        exact sublist_first_idx_lt hsuby hnd0y hzmem haly hgt
    · exact inv.rejSafe a b l0a la h0 hla hb hbla
  · -- the bound for the trimmed participant
    intro l0y2 l'y h0y2 hy'
    rw [h0y] at h0y2
    obtain rfl : l0y = l0y2 := by simpa using h0y2
    rw [hty'] at hy'
    obtain rfl : ly.take (first_idx ly z + 1) = l'y := by simpa using hy'
    intro x hx
    have hxly := List.mem_of_mem_take hx
    have hle : first_idx ly x ≤ first_idx ly z := by
      have := first_idx_mem_take hx
      omega
    exact sublist_first_idx_le hsuby hnd0y hxly hzmem hle

theorem rtp_go_spec {t0 : Table α} {rec : Record α}
    (V : valid_table t0 = true)
    (hOutIn : ∀ a b, rec_out rec a = some b ↔ rec_in rec b = some a)
    (zs : List α) :
    ∀ (t t' : Table α) (u : Unit), TrimInv t0 t rec →
      rtp_go rec zs t = (.ok u, t') →
      TrimInv t0 t' rec ∧ SubTable t t' ∧
      ∀ z ∈ zs, ∀ y, rec_out rec z = some y →
        ∀ l0y l'y, alist_get t0 y = some l0y → alist_get t' y = some l'y →
          AllAtMost l0y l'y z := by
  induction zs with
  | nil =>
    intro t t' u inv h
    unfold rtp_go at h
    simp at h
    subst h
    refine ⟨inv, ?_, by simp⟩
    intro a l0 l h0 hl
    rw [h0] at hl
    obtain rfl : l0 = l := by simpa using hl
    exact List.Sublist.refl l0
  | cons z rest ih =>
    intro t t' u inv h
    unfold rtp_go at h
    rcases hzrec : alist_get rec z with _ | ⟨pto, zi⟩ <;> simp only [hzrec] at h
    · simp at h
    cases pto with
    | none => simp at h
    | some y =>
      rcases hy : alist_get t y with _ | ly <;> simp only [hy] at h
      · simp at h
      rcases hidx : pyIndex ly z with e | r <;> simp only [hidx] at h
      · simp at h
      obtain ⟨hzmem, hr⟩ := pyIndex_ok_iff.mp hidx
      subst hr
      rcases hpass : rtp_successor_pass y (ly.drop (first_idx ly z + 1))
          (alist_set t y (ly.take (first_idx ly z + 1))) with ⟨rp, tp⟩
      cases rp with
      | error e =>
        simp only [hpass] at h
        simp at h
      | ok u2 =>
        simp only [hpass] at h
        have hzout : rec_out rec z = some y := by
          unfold rec_out
          rw [hzrec]
          rfl
        obtain ⟨inv1, hsub1, hbound1⟩ :=
          rtp_step_spec V hOutIn inv hzout hy hzmem hpass
        obtain ⟨inv2, hsub2, hbound2⟩ := ih tp t' u inv1 h
        have hmidget : ∀ a (la : List α), alist_get t a = some la →
            ∃ lm, alist_get tp a = some lm := by
          intro a la ha
          have : a ∈ tp.map Prod.fst := by
            rw [inv1.keysEq, ← inv.keysEq]
            exact alist_get_isSome_iff.mp (by rw [ha]; rfl)
          exact Option.isSome_iff_exists.mp (alist_get_isSome_iff.mpr this)
        refine ⟨inv2, ?_, ?_⟩
        · intro a la la' ha ha'
          obtain ⟨lm, hlm⟩ := hmidget a la ha
          exact (hsub2 a lm la' hlm ha').trans (hsub1 a la lm ha hlm)
        · intro z' hz' y' hy' l0 l' h0 hl'
          rcases List.mem_cons.mp hz' with rfl | hz''
          · rw [hzout] at hy'
            obtain rfl : y = y' := by simpa using hy'
            obtain ⟨lm, hlm⟩ := hmidget y ly hy
            intro x hx
            have hxm : x ∈ lm := (hsub2 y lm l' hlm hl').subset hx
            exact hbound1 l0 lm h0 hlm x hxm
          · exact hbound2 z' hz'' y' hy' l0 l' h0 hl'

theorem head?_mem {l : List α} {a : α} (h : l.head? = some a) : a ∈ l := by
  cases l with
  | nil => simp at h
  | cons x rest =>
    obtain rfl : x = a := by simpa using h
    exact List.mem_cons_self ..

theorem remove_trailing_prefs_spec {t0 t1 t2 : Table α} {rec : Record α}
    {u : Unit}
    (V : valid_table t0 = true)
    (inv : Ph1Inv t0 t1 rec [])
    (hst : is_stable_table rec = true)
    (h : remove_trailing_prefs rec t1 = (.ok u, t2)) :
    TrimInv t0 t2 rec ∧
    (∀ a la, alist_get t2 a = some la → la ≠ []) ∧
    RemSafe t0 t2 := by
  obtain ⟨hcomplete, hsurj⟩ := stable_record_complete V inv hst
  have inv1 : TrimInv t0 t1 rec := by
    refine ⟨inv.keysEq, inv.sub, inv.sym, inv.outFirst, ?_, inv.rejSafe⟩
    intro a c hac
    have hout : rec_out rec c = some a := (inv.outIn c a).mpr hac
    obtain ⟨lc, hlc, hhead⟩ := inv.outFirst c a hout
    obtain ⟨pa, hpa⟩ := rec_in_isSome hac
    have hakey : a ∈ t1.map Prod.fst := by
      rw [inv.keysEq, ← inv.recKeys]
      exact alist_get_isSome_iff.mp (by rw [hpa]; rfl)
    obtain ⟨la, hla⟩ := Option.isSome_iff_exists.mp (alist_get_isSome_iff.mpr hakey)
    exact ⟨la, hla, (sym_mem_iff inv.sym hla hlc).mpr (head?_mem hhead)⟩
  unfold remove_trailing_prefs at h
  obtain ⟨inv2, hsub12, hbounds⟩ :=
    rtp_go_spec V inv.outIn (rec.map Prod.fst) t1 t2 u inv1 h
  have hkey2 : ∀ a, a ∈ t0.map Prod.fst → ∃ la, alist_get t2 a = some la := by
    intro a ha
    refine Option.isSome_iff_exists.mp (alist_get_isSome_iff.mpr ?_)
    rw [inv2.keysEq]
    exact ha
  have hbound_of : ∀ a l0a la c, alist_get t0 a = some l0a →
      alist_get t2 a = some la → rec_in rec a = some c →
      AllAtMost l0a la c := by
    intro a l0a la c h0a hla hinac
    have hakey : a ∈ t0.map Prod.fst :=
      alist_get_isSome_iff.mp (by rw [h0a]; rfl)
    obtain ⟨z, hz⟩ := hsurj a hakey
    obtain ⟨pz, hpz⟩ := rec_out_isSome hz
    have hzmem : z ∈ rec.map Prod.fst :=
      alist_get_isSome_iff.mp (by rw [hpz]; rfl)
    have hinz : rec_in rec a = some z := (inv.outIn z a).mp hz
    rw [hinac] at hinz
    obtain rfl : c = z := by simpa using hinz
    exact hbounds c hzmem a hz l0a la h0a hla
  refine ⟨inv2, ?_, ?_⟩
  · -- no list is left empty by the trim
    intro a la hla hempty
    subst hempty
    have hakey : a ∈ t0.map Prod.fst := by
      rw [← inv2.keysEq]
      exact alist_get_isSome_iff.mp (by rw [hla]; rfl)
    obtain ⟨oa, ia, hreca⟩ := hcomplete a hakey
    have hinia : rec_in rec a = some ia := by
      unfold rec_in
      rw [hreca]
      rfl
    obtain ⟨la', hla', hmem⟩ := inv2.inMem a ia hinia
    rw [hla] at hla'
    obtain rfl : ([] : List α) = la' := by simpa using hla'
    simp at hmem
  · -- conversion of the rejection witnesses into the all-before form
    intro a b l0a la h0a hla hb hnot
    rcases inv2.rejSafe a b l0a la h0a hla hb hnot with
      ⟨c, l0a', h0a', hinac, hcmem, hlt⟩ | ⟨c, l0b, h0b, hinbc, hcmemb, hlt⟩
    · rw [h0a] at h0a'
      obtain rfl : l0a = l0a' := by simpa using h0a'
      have hbound := hbound_of a l0a la c h0a hla hinac
      exact Or.inl (fun x hx => Nat.lt_of_le_of_lt (hbound x hx) hlt)
    · have hbkey : b ∈ t0.map Prod.fst :=
        alist_get_isSome_iff.mp (by rw [h0b]; rfl)
      obtain ⟨lb, hlb⟩ := hkey2 b hbkey
      have hbound := hbound_of b l0b lb c h0b hlb hinbc
      exact Or.inr ⟨l0b, lb, h0b, hlb,
        fun x hx => Nat.lt_of_le_of_lt (hbound x hx) hlt⟩

/-! ### Phase 2: `remove_pairs`, the elimination pairs, and the rounds -/

theorem remove_pairs_state {ps : List (α × α)} :
    ∀ {t t' : Table α} {res : Except PyErr Unit},
      NodupTable t →
      remove_pairs ps t = (res, t') →
      res = .ok () ∨ res = .error .unstable →
      (SymTable t → SymTable t') ∧ NodupTable t' ∧
      t'.map Prod.fst = t.map Prod.fst ∧
      SubTable t t' ∧
      (∀ a la la', alist_get t a = some la → alist_get t' a = some la' →
        la ≠ [] → res = .ok () → la' ≠ []) := by
  induction ps with
  | nil =>
    intro t t' res hnd h hres
    unfold remove_pairs at h
    simp at h
    obtain ⟨rfl, rfl⟩ := h
    refine ⟨fun hs => hs, hnd, rfl, ?_, ?_⟩
    · intro a l0 l h0 hl
      rw [h0] at hl
      obtain rfl : l0 = l := by simpa using hl
      exact List.Sublist.refl l0
    · intro a la la' ha ha' hne _
      rw [ha] at ha'
      obtain rfl : la = la' := by simpa using ha'
      exact hne
  | cons p rest ih =>
    intro t t' res hnd h hres
    rcases p with ⟨l, r⟩
    unfold remove_pairs at h
    rcases hrb : remove_both l r t with ⟨rb, tb⟩
    cases rb with
    | error e =>
      simp only [hrb] at h
      simp at h
      obtain ⟨rfl, rfl⟩ := h
      rcases hres with hres | hres
      · exact absurd hres (by simp)
      · exact absurd (by simpa using hres)
          (remove_both_error_ne_unstable hrb)
    | ok u =>
      simp only [hrb] at h
      obtain ⟨la, lb, hne, hla, hlb, hbla, halb, ha', hb', hother, hkeys⟩ :=
        remove_both_ok_desc hnd hrb
      have hndb : NodupTable tb := remove_both_nodup hnd hrb
      have hsubb : SubTable t tb := by
        intro a l0 lx h0 hx
        by_cases hxa : a = l
        · subst hxa
          rw [hx] at ha'
          obtain rfl : lx = la.erase r := by simpa using ha'
          rw [h0] at hla
          obtain rfl : l0 = la := by simpa using hla
          exact List.erase_sublist ..
        · by_cases hxb : a = r
          · subst hxb
            rw [hx] at hb'
            obtain rfl : lx = lb.erase l := by simpa using hb'
            rw [h0] at hlb
            obtain rfl : l0 = lb := by simpa using hlb
            exact List.erase_sublist ..
          · rw [hother a hxa hxb, h0] at hx
            obtain rfl : l0 = lx := by simpa using hx
            exact List.Sublist.refl l0
      rcases hl' : alist_get tb l with _ | ll <;> simp only [hl'] at h
      · rw [hl'] at ha'; exact absurd ha' (by simp)
      rcases hr' : alist_get tb r with _ | rl <;> simp only [hr'] at h
      · rw [hr'] at hb'; exact absurd hb' (by simp)
      by_cases hemp : (ll.isEmpty || rl.isEmpty) = true
      · rw [if_pos hemp] at h
        simp at h
        obtain ⟨rfl, rfl⟩ := h
        refine ⟨fun hs => remove_both_sym hs hnd hrb, hndb, hkeys, hsubb, ?_⟩
        intro a la2 la2' ha2 ha2' hne2 hok
        exact absurd hok (by simp)
      · rw [if_neg hemp] at h
        obtain ⟨hsym2, hnd2, hkeys2, hsub2, hne2⟩ := ih hndb h hres
        refine ⟨fun hs => hsym2 (remove_both_sym hs hnd hrb), hnd2,
          hkeys2.trans hkeys, ?_, ?_⟩
        · intro a l0 lx h0 hx
          have hamem : a ∈ tb.map Prod.fst := by
            rw [← hkeys2]
            exact alist_get_isSome_iff.mp (by rw [hx]; rfl)
          obtain ⟨lm, hlm⟩ :=
            Option.isSome_iff_exists.mp (alist_get_isSome_iff.mpr hamem)
          exact (hsub2 a lm lx hlm hx).trans (hsubb a l0 lm h0 hlm)
        · intro a la2 la2' ha2 ha2' hane hok
          have hmidne : ∀ lm, alist_get tb a = some lm → lm ≠ [] := by
            intro lm hlm
            by_cases hal : a = l
            · subst hal
              rw [hlm] at hl'
              obtain rfl : lm = ll := by simpa using hl'
              intro hc
              subst hc
              simp at hemp
            · by_cases har : a = r
              · subst har
                rw [hlm] at hr'
                obtain rfl : lm = rl := by simpa using hr'
                intro hc
                subst hc
                simp at hemp
              · rw [hother a hal har] at hlm
                rw [ha2] at hlm
                obtain rfl : la2 = lm := by simpa using hlm
                exact hane
          have hamem : a ∈ tb.map Prod.fst := by
            rw [← hkeys2]
            exact alist_get_isSome_iff.mp (by rw [ha2']; rfl)
          obtain ⟨lm, hlm⟩ :=
            Option.isSome_iff_exists.mp (alist_get_isSome_iff.mpr hamem)
          exact hne2 a lm la2' hlm ha2' (hmidne lm hlm) hok

theorem remove_pairs_removes {ps : List (α × α)} :
    ∀ {t t' : Table α} {u : Unit} {l r : α},
      NodupTable t →
      remove_pairs ps t = (.ok u, t') →
      (l, r) ∈ ps →
      (∀ la', alist_get t' l = some la' → r ∉ la') ∧
      (∀ lb', alist_get t' r = some lb' → l ∉ lb') := by
  induction ps with
  | nil =>
    intro t t' u l r hnd h hmem
    simp at hmem
  | cons p rest ih =>
    intro t t' u l r hnd h hmem
    rcases p with ⟨l0, r0⟩
    unfold remove_pairs at h
    rcases hrb : remove_both l0 r0 t with ⟨rb, tb⟩
    cases rb with
    | error e =>
      simp only [hrb] at h
      simp at h
    | ok v =>
      simp only [hrb] at h
      obtain ⟨la, lb, hne, hla, hlb, hbla, halb, ha', hb', hother, hkeys⟩ :=
        remove_both_ok_desc hnd hrb
      have hndb : NodupTable tb := remove_both_nodup hnd hrb
      rcases hl' : alist_get tb l0 with _ | ll <;> simp only [hl'] at h
      · rw [hl'] at ha'; exact absurd ha' (by simp)
      rcases hr' : alist_get tb r0 with _ | rl <;> simp only [hr'] at h
      · rw [hr'] at hb'; exact absurd hb' (by simp)
      by_cases hemp : (ll.isEmpty || rl.isEmpty) = true
      · rw [if_pos hemp] at h
        simp at h
      · rw [if_neg hemp] at h
        obtain ⟨_, _, _, hsubr, _⟩ :=
          remove_pairs_state hndb h (Or.inl rfl)
        rcases List.mem_cons.mp hmem with hhd | htl
        · rcases Prod.mk.injEq .. ▸ hhd with ⟨rfl, rfl⟩
          constructor
          · intro la2 ha2 hmem2
            have hsl : la2.Sublist (la.erase r) := hsubr l (la.erase r) la2 ha' ha2
            have : r ∈ la.erase r := hsl.mem hmem2
            exact absurd (((hnd l la hla).mem_erase_iff).mp this).1 (by simp)
          · intro lb2 hb2 hmem2
            have hsl : lb2.Sublist (lb.erase l) := hsubr r (lb.erase l) lb2 hb' hb2
            have : l ∈ lb.erase l := hsl.mem hmem2
            exact absurd (((hnd r lb hlb).mem_erase_iff).mp this).1 (by simp)
        · exact ih hndb h htl

theorem remove_pairs_new_absence {ps : List (α × α)} :
    ∀ {t t' : Table α} {u : Unit} {a b : α} {la la' : List α},
      NodupTable t →
      remove_pairs ps t = (.ok u, t') →
      alist_get t a = some la → alist_get t' a = some la' →
      b ∈ la → b ∉ la' →
      (a, b) ∈ ps ∨ (b, a) ∈ ps := by
  induction ps with
  | nil =>
    intro t t' u a b la la' hnd h hla ha' hb hb'
    unfold remove_pairs at h
    simp at h
    obtain ⟨-, rfl⟩ := h
    rw [hla] at ha'
    obtain rfl : la = la' := by simpa using ha'
    exact absurd hb hb'
  | cons p rest ih =>
    intro t t' u a b la la' hnd h hla ha' hb hb'
    rcases p with ⟨l0, r0⟩
    unfold remove_pairs at h
    rcases hrb : remove_both l0 r0 t with ⟨rb, tb⟩
    cases rb with
    | error e =>
      simp only [hrb] at h
      simp at h
    | ok v =>
      simp only [hrb] at h
      obtain ⟨l1, l2, hne, hl1, hl2, hm1, hm2, hg1, hg2, hother, hkeys⟩ :=
        remove_both_ok_desc hnd hrb
      have hndb : NodupTable tb := remove_both_nodup hnd hrb
      rcases hl' : alist_get tb l0 with _ | ll <;> simp only [hl'] at h
      · rw [hl'] at hg1; exact absurd hg1 (by simp)
      rcases hr' : alist_get tb r0 with _ | rl <;> simp only [hr'] at h
      · rw [hr'] at hg2; exact absurd hg2 (by simp)
      by_cases hemp : (ll.isEmpty || rl.isEmpty) = true
      · rw [if_pos hemp] at h
        simp at h
      · rw [if_neg hemp] at h
        have hmid : ∃ lm, alist_get tb a = some lm := by
          by_cases hal : a = l0
          · exact ⟨l1.erase r0, hal ▸ hg1⟩
          · by_cases har : a = r0
            · exact ⟨l2.erase l0, har ▸ hg2⟩
            · exact ⟨la, (hother a hal har).trans hla⟩
        obtain ⟨lm, hlm⟩ := hmid
        by_cases hbm : b ∈ lm
        · rcases ih hndb h hlm ha' hbm hb' with h1 | h1
          · exact Or.inl (List.mem_cons_of_mem _ h1)
          · exact Or.inr (List.mem_cons_of_mem _ h1)
        · by_cases hal : a = l0
          · subst hal
            rw [hg1] at hlm
            obtain rfl : l1.erase r0 = lm := by simpa using hlm
            rw [hla] at hl1
            obtain rfl : la = l1 := by simpa using hl1
            have hbr : b = r0 := by
              by_contra hc
              exact hbm (((hnd a la hla).mem_erase_iff).mpr ⟨hc, hb⟩)
            subst hbr
            exact Or.inl (List.mem_cons_self ..)
          · by_cases har : a = r0
            · subst har
              rw [hg2] at hlm
              obtain rfl : l2.erase l0 = lm := by simpa using hlm
              rw [hla] at hl2
              obtain rfl : la = l2 := by simpa using hl2
              have hbl : b = l0 := by
                by_contra hc
                exact hbm (((hnd a la hla).mem_erase_iff).mpr ⟨hc, hb⟩)
              subst hbl
              exact Or.inr (List.mem_cons_self ..)
            · rw [hother a hal har, hla] at hlm
              obtain rfl : la = lm := by simpa using hlm
              exact absurd hb hbm

theorem fptr_fold_mono (part : α) :
    ∀ (S : List α) (acc : List (α × α)) (p : α × α), p ∈ acc →
      p ∈ S.foldl (fun acc successor =>
        if (part, successor) ∈ acc ∨ (successor, part) ∈ acc then acc
        else acc ++ [(part, successor)]) acc := by
  intro S
  induction S with
  | nil => intro acc p hp; simpa using hp
  | cons s0 rest ih =>
    intro acc p hp
    simp only [List.foldl_cons]
    by_cases hc : (part, s0) ∈ acc ∨ (s0, part) ∈ acc
    · rw [if_pos hc]
      exact ih acc p hp
    · rw [if_neg hc]
      exact ih _ p (List.mem_append_left _ hp)

theorem fptr_fold_covers (part : α) :
    ∀ (S : List α) (acc : List (α × α)) (s : α), s ∈ S →
      (part, s) ∈ S.foldl (fun acc successor =>
        if (part, successor) ∈ acc ∨ (successor, part) ∈ acc then acc
        else acc ++ [(part, successor)]) acc ∨
      (s, part) ∈ S.foldl (fun acc successor =>
        if (part, successor) ∈ acc ∨ (successor, part) ∈ acc then acc
        else acc ++ [(part, successor)]) acc := by
  intro S
  induction S with
  | nil => intro acc s hs; simp at hs
  | cons s0 rest ih =>
    intro acc s hs
    simp only [List.foldl_cons]
    rcases List.mem_cons.mp hs with rfl | hs'
    · by_cases hc : (part, s) ∈ acc ∨ (s, part) ∈ acc
      · rw [if_pos hc]
        rcases hc with hc | hc
        · exact Or.inl (fptr_fold_mono part rest acc _ hc)
        · exact Or.inr (fptr_fold_mono part rest acc _ hc)
      · rw [if_neg hc]
        exact Or.inl (fptr_fold_mono part rest _ _
          (List.mem_append_right _ (List.mem_cons_self ..)))
    · by_cases hc : (part, s0) ∈ acc ∨ (s0, part) ∈ acc
      · rw [if_pos hc]
        exact ih acc s hs'
      · rw [if_neg hc]
        exact ih _ s hs'

theorem fptr_fold_shape (part : α) :
    ∀ (S : List α) (acc : List (α × α)) (p : α × α),
      p ∈ S.foldl (fun acc successor =>
        if (part, successor) ∈ acc ∨ (successor, part) ∈ acc then acc
        else acc ++ [(part, successor)]) acc →
      p ∈ acc ∨ ∃ s ∈ S, p = (part, s) := by
  intro S
  induction S with
  | nil => intro acc p hp; exact Or.inl (by simpa using hp)
  | cons s0 rest ih =>
    intro acc p hp
    simp only [List.foldl_cons] at hp
    by_cases hc : (part, s0) ∈ acc ∨ (s0, part) ∈ acc
    · rw [if_pos hc] at hp
      rcases ih acc p hp with h1 | ⟨s, hs, rfl⟩
      · exact Or.inl h1
      · exact Or.inr ⟨s, List.mem_cons_of_mem _ hs, rfl⟩
    · rw [if_neg hc] at hp
      rcases ih _ p hp with h1 | ⟨s, hs, rfl⟩
      · rcases List.mem_append.mp h1 with h2 | h2
        · exact Or.inl h2
        · exact Or.inr ⟨s0, List.mem_cons_self .., by simpa using h2⟩
      · exact Or.inr ⟨s, List.mem_cons_of_mem _ hs, rfl⟩

theorem fptr_go_mono {cycle : List (α × α)} {prefs : Table α} :
    ∀ {rest : List (α × α)} {i : Nat} {acc R : List (α × α)},
      fptr_go cycle prefs i rest acc = .ok R →
      ∀ p ∈ acc, p ∈ R := by
  intro rest
  induction rest with
  | nil =>
    intro i acc R h p hp
    unfold fptr_go at h
    obtain rfl : acc = R := by simpa using h
    exact hp
  | cons c rest ih =>
    intro i acc R h p hp
    rcases c with ⟨x, part⟩
    simp only [fptr_go] at h
    rcases hpp : alist_get prefs part with _ | ppl <;> simp only [hpp] at h
    · simp at h
    rcases hcg : cycle.get? (if i = 0 then cycle.length - 1 else i - 1)
      with _ | fpc <;> simp only [hcg] at h
    · simp at h
    rcases fpc with ⟨fp, y⟩
    rcases hpy : pyIndex ppl fp with e | rIdx <;> simp only [hpy] at h
    · simp at h
    exact ih h p (fptr_fold_mono part (ppl.drop (rIdx + 1)) acc p hp)

theorem fptr_go_cert {cycle : List (α × α)} {prefs : Table α} :
    ∀ {rest : List (α × α)} {i : Nat} {acc R : List (α × α)},
      fptr_go cycle prefs i rest acc = .ok R →
      (∀ p ∈ acc, ElimCert prefs R p) →
      ∀ p ∈ R, ElimCert prefs R p := by
  intro rest
  induction rest with
  | nil =>
    intro i acc R h hacc
    unfold fptr_go at h
    obtain rfl : acc = R := by simpa using h
    exact hacc
  | cons c rest ih =>
    intro i acc R h hacc
    rcases c with ⟨x, part⟩
    simp only [fptr_go] at h
    rcases hpp : alist_get prefs part with _ | ppl <;> simp only [hpp] at h
    · simp at h
    rcases hcg : cycle.get? (if i = 0 then cycle.length - 1 else i - 1)
      with _ | fpc <;> simp only [hcg] at h
    · simp at h
    rcases fpc with ⟨fp, y⟩
    rcases hpy : pyIndex ppl fp with e | rIdx <;> simp only [hpy] at h
    · simp at h
    refine ih h ?_
    intro p hp
    rcases fptr_fold_shape part (ppl.drop (rIdx + 1)) acc p hp with h1 | ⟨s, hs, rfl⟩
    · exact hacc p h1
    · refine ⟨ppl, rIdx, hpp, hs, ?_⟩
      intro s' hs'
      rcases fptr_fold_covers part (ppl.drop (rIdx + 1)) acc s' hs' with h2 | h2
      · exact Or.inl (fptr_go_mono h _ h2)
      · exact Or.inr (fptr_go_mono h _ h2)

theorem find_pairs_to_remove_cert {cycle : List (α × α)} {prefs : Table α}
    {R : List (α × α)} (h : find_pairs_to_remove cycle prefs = .ok R) :
    ∀ p ∈ R, ElimCert prefs R p := by
  refine fptr_go_cert h ?_
  intro p hp
  simp at hp

theorem subtable_trans {t0 t1 t2 : Table α}
    (hk : t2.map Prod.fst = t1.map Prod.fst)
    (h01 : SubTable t0 t1) (h12 : SubTable t1 t2) : SubTable t0 t2 := by
  intro a l0 l2 h0 h2
  have hkey : a ∈ t1.map Prod.fst := by
    rw [← hk]
    exact alist_get_isSome_iff.mp (by rw [h2]; rfl)
  obtain ⟨l1, hl1⟩ :=
    Option.isSome_iff_exists.mp (alist_get_isSome_iff.mpr hkey)
  exact (h12 a l1 l2 hl1 h2).trans (h01 a l0 l1 h0 hl1)

theorem remove_pairs_remsafe {t0 t t' : Table α} {ps : List (α × α)} {u : Unit}
    (V : valid_table t0 = true)
    (hnd : NodupTable t) (hkeys : t.map Prod.fst = t0.map Prod.fst)
    (hsub0 : SubTable t0 t)
    (hcert : ∀ p ∈ ps, ElimCert t ps p)
    (h : remove_pairs ps t = (.ok u, t'))
    (hRS : RemSafe t0 t) : RemSafe t0 t' := by
  obtain ⟨-, hnd', hkeys', hsubt, -⟩ := remove_pairs_state hnd h (Or.inl rfl)
  intro a b l0a la' h0a ha' hbl0 hbla'
  have hakey : a ∈ t.map Prod.fst := by
    rw [hkeys]
    exact alist_get_isSome_iff.mp (by rw [h0a]; rfl)
  obtain ⟨la, hla⟩ :=
    Option.isSome_iff_exists.mp (alist_get_isSome_iff.mpr hakey)
  have hsl : la'.Sublist la := hsubt a la la' hla ha'
  by_cases hbla : b ∈ la
  · rcases remove_pairs_new_absence hnd h hla ha' hbla hbla' with hab | hba
    · obtain ⟨ll, k, hll, hbdrop, hcompl⟩ := hcert _ hab
      rw [hla] at hll
      obtain rfl : la = ll := by simpa using hll
      have hnda : la.Nodup := hnd a la hla
      have hnd0a : l0a.Nodup := valid_nodup V a l0a h0a
      have hs0a : la.Sublist l0a := hsub0 a l0a la h0a hla
      refine Or.inl ?_
      intro x hx
      have hxla : x ∈ la := hsl.mem hx
      have hxdrop : x ∉ la.drop (k + 1) := by
        intro hc
        rcases hcompl x hc with h1 | h1
        · exact (remove_pairs_removes hnd h h1).1 la' ha' hx
        · exact (remove_pairs_removes hnd h h1).2 la' ha' hx
      have hxk : first_idx la x < k + 1 := by
        by_contra hc
        exact hxdrop (mem_drop_of_first_idx hxla (Nat.le_of_not_lt hc))
      have hbk : k + 1 ≤ first_idx la b := first_idx_mem_drop hnda hbdrop
      exact sublist_first_idx_lt hs0a hnd0a hxla (List.mem_of_mem_drop hbdrop)
        (Nat.lt_of_lt_of_le hxk hbk)
    · obtain ⟨ll, k, hll, hadrop, hcompl⟩ := hcert _ hba
      have hbkey0 : b ∈ t0.map Prod.fst := ((valid_mem_iff V h0a b).mp hbl0).1
      obtain ⟨l0b, h0b⟩ :=
        Option.isSome_iff_exists.mp (alist_get_isSome_iff.mpr hbkey0)
      have hbkey' : b ∈ t'.map Prod.fst := by
        rw [hkeys', hkeys]
        exact hbkey0
      obtain ⟨lb', hb'⟩ :=
        Option.isSome_iff_exists.mp (alist_get_isSome_iff.mpr hbkey')
      have hslb : lb'.Sublist ll := hsubt b ll lb' hll hb'
      have hndb : ll.Nodup := hnd b ll hll
      have hnd0b : l0b.Nodup := valid_nodup V b l0b h0b
      have hs0b : ll.Sublist l0b := hsub0 b l0b ll h0b hll
      refine Or.inr ⟨l0b, lb', h0b, hb', ?_⟩
      intro x hx
      have hxll : x ∈ ll := hslb.mem hx
      have hxdrop : x ∉ ll.drop (k + 1) := by
        intro hc
        rcases hcompl x hc with h1 | h1
        · exact (remove_pairs_removes hnd h h1).1 lb' hb' hx
        · exact (remove_pairs_removes hnd h h1).2 lb' hb' hx
      have hxk : first_idx ll x < k + 1 := by
        by_contra hc
        exact hxdrop (mem_drop_of_first_idx hxll (Nat.le_of_not_lt hc))
      have hak : k + 1 ≤ first_idx ll a := first_idx_mem_drop hndb hadrop
      exact sublist_first_idx_lt hs0b hnd0b hxll (List.mem_of_mem_drop hadrop)
        (Nat.lt_of_lt_of_le hxk hak)
  · rcases hRS a b l0a la h0a hla hbl0 hbla with hAB | ⟨l0b, lb, h0b, hlb, hAB⟩
    · exact Or.inl (fun x hx => hAB x (hsl.mem hx))
    · have hbkey' : b ∈ t'.map Prod.fst := by
        rw [hkeys', ← alist_get_isSome_iff]
        rw [hlb]
        rfl
      obtain ⟨lb', hb'⟩ :=
        Option.isSome_iff_exists.mp (alist_get_isSome_iff.mpr hbkey')
      have hslb : lb'.Sublist lb := hsubt b lb lb' hlb hb'
      exact Or.inr ⟨l0b, lb', h0b, hb', fun x hx => hAB x (hslb.mem hx)⟩

theorem gsm_round_spec {t0 : Table α} (V : valid_table t0 = true) :
    ∀ (fuel : Nat) (k : α) (t t' : Table α),
      NodupTable t → t.map Prod.fst = t0.map Prod.fst → SubTable t0 t →
      SymTable t → RemSafe t0 t →
      gsm_round fuel k t = (.ok true, t') →
      (NodupTable t' ∧ t'.map Prod.fst = t0.map Prod.fst ∧ SubTable t0 t' ∧
        SymTable t' ∧ RemSafe t0 t') ∧
      SubTable t t' ∧
      (∀ a la la', alist_get t a = some la → alist_get t' a = some la' →
        la ≠ [] → la' ≠ []) ∧
      (∃ lk, alist_get t' k = some lk ∧ lk.length ≤ 1) := by
  intro fuel
  induction fuel with
  | zero =>
    intro k t t' hnd hkeys hsub hsym hRS h
    unfold gsm_round at h
    simp at h
  | succ fuel ih =>
    intro k t t' hnd hkeys hsub hsym hRS h
    simp only [gsm_round] at h
    rcases hlk : alist_get t k with _ | l <;> simp only [hlk] at h
    · simp at h
    by_cases hlen : l.length ≤ 1
    · rw [if_pos hlen] at h
      rw [Prod.mk.injEq] at h
      obtain ⟨-, rfl⟩ := h
      refine ⟨⟨hnd, hkeys, hsub, hsym, hRS⟩, ?_, ?_, ⟨l, hlk, hlen⟩⟩
      · intro a l0 l2 h0 h2
        rw [h0] at h2
        obtain rfl : l0 = l2 := by simpa using h2
        exact List.Sublist.refl l0
      · intro a la la' ha ha' hne
        rw [ha] at ha'
        obtain rfl : la = la' := by simpa using ha'
        exact hne
    · rw [if_neg hlen] at h
      rcases hfc : find_cycle t (fc_fuel t) [k] [] with e | pq
      · rw [hfc] at h
        simp at h
      rcases pq with ⟨pRev, qRev⟩
      rcases pRev with _ | ⟨pLast, pRest⟩
      · rw [hfc] at h
        simp at h
      rw [hfc] at h
      simp only at h
      split at h
      next e heq => simp at h
      next ps heq =>
        split at h
        next u tm heq2 =>
          obtain ⟨hsymm, hndm, hkeysm, hsubm, hnem⟩ :=
            remove_pairs_state hnd heq2 (Or.inl rfl)
          have hcert := find_pairs_to_remove_cert heq
          have hRSm : RemSafe t0 tm :=
            remove_pairs_remsafe V hnd hkeys hsub hcert heq2 hRS
          obtain ⟨bund, hsubr, hner, hlk'⟩ :=
            ih k tm t' hndm (hkeysm.trans hkeys)
              (subtable_trans hkeysm hsub hsubm) (hsymm hsym) hRSm h
          refine ⟨bund, ?_, ?_, hlk'⟩
          · exact subtable_trans (bund.2.1.trans (hkeysm.trans hkeys).symm)
              hsubm hsubr
          · intro a la la' ha ha' hne
            have hamem : a ∈ tm.map Prod.fst := by
              rw [hkeysm]
              exact alist_get_isSome_iff.mp (by rw [ha]; rfl)
            obtain ⟨lm, hlm⟩ :=
              Option.isSome_iff_exists.mp (alist_get_isSome_iff.mpr hamem)
            exact hner a lm la' hlm ha' (hnem a la lm ha hlm hne rfl)
        next tm heq2 => simp at h
        next e tm hne2 heq2 => simp at h

theorem gsm_outer_spec {t0 : Table α} (V : valid_table t0 = true) (fuel : Nat) :
    ∀ (ks : List α) (t t' : Table α),
      NodupTable t → t.map Prod.fst = t0.map Prod.fst → SubTable t0 t →
      SymTable t → RemSafe t0 t →
      gsm_outer fuel ks t = (.ok .table, t') →
      (NodupTable t' ∧ t'.map Prod.fst = t0.map Prod.fst ∧ SubTable t0 t' ∧
        SymTable t' ∧ RemSafe t0 t') ∧
      SubTable t t' ∧
      (∀ a la la', alist_get t a = some la → alist_get t' a = some la' →
        la ≠ [] → la' ≠ []) ∧
      (∀ k ∈ ks, ∃ lk, alist_get t' k = some lk ∧ lk.length ≤ 1) := by
  intro ks
  induction ks with
  | nil =>
    intro t t' hnd hkeys hsub hsym hRS h
    unfold gsm_outer at h
    rw [Prod.mk.injEq] at h
    obtain ⟨-, rfl⟩ := h
    refine ⟨⟨hnd, hkeys, hsub, hsym, hRS⟩, ?_, ?_, fun k hk => absurd hk (by simp)⟩
    · intro a l0 l2 h0 h2
      rw [h0] at h2
      obtain rfl : l0 = l2 := by simpa using h2
      exact List.Sublist.refl l0
    · intro a la la' ha ha' hne
      rw [ha] at ha'
      obtain rfl : la = la' := by simpa using ha'
      exact hne
  | cons k rest ih =>
    intro t t' hnd hkeys hsub hsym hRS h
    simp only [gsm_outer] at h
    split at h
    next tm heq =>
      obtain ⟨⟨hndm, hkeysm, hsubm0, hsymm, hRSm⟩, hsubm, hnem, lk, hlkm, hlen⟩ :=
        gsm_round_spec V fuel k t tm hnd hkeys hsub hsym hRS heq
      obtain ⟨bund, hsubr, hner, hrest⟩ :=
        ih tm t' hndm hkeysm hsubm0 hsymm hRSm h
      refine ⟨bund, ?_, ?_, ?_⟩
      · exact subtable_trans (bund.2.1.trans hkeysm.symm) hsubm hsubr
      · intro a la la' ha ha' hne
        have hamem : a ∈ tm.map Prod.fst := by
          rw [hkeysm, ← hkeys]
          exact alist_get_isSome_iff.mp (by rw [ha]; rfl)
        obtain ⟨lm, hlm⟩ :=
          Option.isSome_iff_exists.mp (alist_get_isSome_iff.mpr hamem)
        exact hner a lm la' hlm ha' (hnem a la lm ha hlm hne)
      · intro k' hk'
        rcases List.mem_cons.mp hk' with rfl | hk2
        · have hkm : k' ∈ t'.map Prod.fst := by
            rw [bund.2.1, ← hkeysm]
            exact alist_get_isSome_iff.mp (by rw [hlkm]; rfl)
          obtain ⟨lk', hlk'⟩ :=
            Option.isSome_iff_exists.mp (alist_get_isSome_iff.mpr hkm)
          exact ⟨lk', hlk',
            Nat.le_trans (hsubr k' lk lk' hlkm hlk').length_le hlen⟩
        · exact hrest k' hk2
    next tm heq => simp at h
    next e tm heq => simp at h

theorem get_stable_match_spec {t0 t t' : Table α} {fuel : Nat}
    (V : valid_table t0 = true)
    (hnd : NodupTable t) (hkeys : t.map Prod.fst = t0.map Prod.fst)
    (hsub : SubTable t0 t) (hsym : SymTable t) (hRS : RemSafe t0 t)
    (h : get_stable_match fuel t = (.ok .table, t')) :
    (NodupTable t' ∧ t'.map Prod.fst = t0.map Prod.fst ∧ SubTable t0 t' ∧
      SymTable t' ∧ RemSafe t0 t') ∧
    SubTable t t' ∧
    (∀ a la la', alist_get t a = some la → alist_get t' a = some la' →
      la ≠ [] → la' ≠ []) ∧
    (∀ k ∈ t.map Prod.fst, ∃ lk, alist_get t' k = some lk ∧ lk.length ≤ 1) := by
  unfold get_stable_match at h
  exact gsm_outer_spec V fuel (t.map Prod.fst) t t' hnd hkeys hsub hsym hRS h

theorem fsp_success_decomp {t : Table α} {fuel : Nat} {m s : Table α}
    (h : find_stable_pairings t fuel = (.ok (.matching m), s)) :
    ∃ rec t1 t2 u, make_proposals fuel t = ((.ok rec : Except PyErr (Record α)), t1) ∧
      is_stable_table rec = true ∧
      remove_trailing_prefs rec t1 = ((.ok u : Except PyErr Unit), t2) ∧
      get_stable_match fuel t2 = (.ok .table, m) ∧ s = m := by
  unfold find_stable_pairings at h
  rcases hmp : make_proposals fuel t with ⟨r1, t1⟩
  rw [hmp] at h
  cases r1 with
  | error e => simp at h
  | ok rec =>
    simp only at h
    by_cases hst : is_stable_table rec
    · rw [if_pos hst] at h
      rcases hrt : remove_trailing_prefs rec t1 with ⟨r2, t2⟩
      rw [hrt] at h
      cases r2 with
      | error e => simp at h
      | ok u =>
        simp only at h
        rcases hg : get_stable_match fuel t2 with ⟨r3, t3⟩
        rw [hg] at h
        cases r3 with
        | error e => cases e <;> simp_all
        | ok g =>
          cases g with
          | table =>
            rw [Prod.mk.injEq] at h
            obtain ⟨ha, hb⟩ := h
            injection ha with ha
            injection ha with ha
            subst ha
            subst hb
            exact ⟨rec, t1, t2, u, rfl, hst, hrt, hg, rfl⟩
          | errClass => simp at h
    · rw [if_neg hst] at h
      simp at h

theorem first_idx_not_mem {l : List α} {x : α} (h : x ∉ l) :
    first_idx l x = l.length := by
  induction l with
  | nil => rfl
  | cons a rest ih =>
    unfold first_idx
    rw [if_neg (fun hc => h (by rw [← hc]; exact List.mem_cons_self ..))]
    simp only [List.length_cons]
    exact congrArg Nat.succ (ih (fun hc => h (List.mem_cons_of_mem _ hc)))

theorem length_one_head {l : List α} {b : α} (h1 : l.length = 1)
    (h2 : l.head? = some b) : l = [b] := by
  cases l with
  | nil => simp at h2
  | cons x xs =>
    obtain rfl : x = b := by simpa using h2
    cases xs with
    | nil => rfl
    | cons y ys => simp at h1

/-- End-to-end success properties of `find_stable_pairings` on a
contract-satisfying input: the matching keeps the input's participants,
every list is a singleton, the table is symmetric, every list is a
subsequence of the original one, and every removed pair is safe. -/
theorem fsp_success_properties {t0 m s : Table α} {fuel : Nat}
    (V : valid_table t0 = true)
    (h : find_stable_pairings t0 fuel = (.ok (.matching m), s)) :
    m.map Prod.fst = t0.map Prod.fst ∧
    (∀ a ∈ t0.map Prod.fst, ∃ la, alist_get m a = some la ∧ la.length = 1) ∧
    SymTable m ∧ SubTable t0 m ∧ RemSafe t0 m := by
  obtain ⟨rec, t1, t2, u, hmp, hst, hrt, hg, rfl⟩ := fsp_success_decomp h
  have inv := make_proposals_inv V hmp
  obtain ⟨tinv, hne2, hRS2⟩ := remove_trailing_prefs_spec V inv hst hrt
  have hnd2 : NodupTable t2 := subtable_nodup V tinv.sub tinv.keysEq
  obtain ⟨⟨hnd', hkeys', hsub', hsym', hRS'⟩, hsubm, hnem, hbound⟩ :=
    get_stable_match_spec V hnd2 tinv.keysEq tinv.sub tinv.sym hRS2 hg
  refine ⟨hkeys', ?_, hsym', hsub', hRS'⟩
  intro a ha
  have ham : a ∈ t2.map Prod.fst := by rw [tinv.keysEq]; exact ha
  obtain ⟨la, hla, hlen⟩ := hbound a ham
  obtain ⟨l2, hl2⟩ :=
    Option.isSome_iff_exists.mp (alist_get_isSome_iff.mpr ham)
  have hne' : la ≠ [] := hnem a l2 la hl2 hla (hne2 a l2 hl2)
  exact ⟨la, hla, Nat.le_antisymm hlen (List.length_pos.mpr hne')⟩

/-- **C1**: on every contract-satisfying input on which
`find_stable_pairings` succeeds with a matching, there is no blocking
pair: for participants `p`, `q` with partners `pp`, `pq` and `q ≠ pp`,
it is not the case that `p` strictly prefers `q` to `pp` in its original
list and `q` strictly prefers `p` to `pq` in its own original list. -/
theorem C1_no_blocking_pair {t0 m s : Table α} {fuel : Nat}
    (V : valid_table t0 = true)
    (h : find_stable_pairings t0 fuel = (.ok (.matching m), s))
    {p q pp pq : α} {l0p l0q : List α}
    (hp : partner_of m p = some pp) (hq : partner_of m q = some pq)
    (hqpp : q ≠ pp)
    (h0p : alist_get t0 p = some l0p) (h0q : alist_get t0 q = some l0q) :
    ¬(prefers l0p q pp ∧ prefers l0q p pq) := by
  rintro ⟨hpref1, hpref2⟩
  obtain ⟨hkeys, hsing, hsymm, hsub, hRS⟩ := fsp_success_properties V h
  unfold partner_of at hp hq
  rcases hlp : alist_get m p with _ | lp
  · rw [hlp] at hp; simp at hp
  rw [hlp] at hp
  have hhdp : lp.head? = some pp := by simpa using hp
  have hpkey : p ∈ t0.map Prod.fst := by
    rw [← hkeys]; exact alist_get_isSome_iff.mp (by rw [hlp]; rfl)
  obtain ⟨lp', hlp', hlenp⟩ := hsing p hpkey
  rw [hlp] at hlp'
  obtain rfl : lp = lp' := by simpa using hlp'
  obtain rfl : lp = [pp] := length_one_head hlenp hhdp
  rcases hlq : alist_get m q with _ | lq
  · rw [hlq] at hq; simp at hq
  rw [hlq] at hq
  have hhdq : lq.head? = some pq := by simpa using hq
  have hqkey : q ∈ t0.map Prod.fst := by
    rw [← hkeys]; exact alist_get_isSome_iff.mp (by rw [hlq]; rfl)
  obtain ⟨lq', hlq', hlenq⟩ := hsing q hqkey
  rw [hlq] at hlq'
  obtain rfl : lq = lq' := by simpa using hlq'
  obtain rfl : lq = [pq] := length_one_head hlenq hhdq
  have hppl0 : pp ∈ l0p := (hsub p l0p [pp] h0p hlp).mem (by simp)
  have hql0 : q ∈ l0p := by
    by_contra hc
    unfold prefers at hpref1
    rw [first_idx_not_mem hc] at hpref1
    exact Nat.not_lt.mpr (Nat.le_of_lt (first_idx_lt_length hppl0)) hpref1
  rcases hRS p q l0p [pp] h0p hlp hql0 (by simpa using hqpp) with
    hAB | ⟨l0b, lb, h0b, hlb, hAB⟩
  · exact Nat.lt_asymm hpref1 (hAB pp (by simp))
  · rw [h0q] at h0b
    obtain rfl : l0q = l0b := by simpa using h0b
    rw [hlq] at hlb
    obtain rfl : [pq] = lb := by simpa using hlb
    exact Nat.lt_asymm hpref2 (hAB pq (by simp))

theorem C1_witness :
    valid_table stable_phase2 = true ∧
    ¬(prefers ["C", "B", "D"] "C" "B" ∧ prefers ["D", "B", "A"] "A" "D") :=
  ⟨by decide, C1_no_blocking_pair (by decide)
    (rfl : find_stable_pairings stable_phase2 6 =
      (.ok (.matching [("A", ["B"]), ("B", ["A"]), ("C", ["D"]), ("D", ["C"])]),
       [("A", ["B"]), ("B", ["A"]), ("C", ["D"]), ("D", ["C"])]))
    (rfl : partner_of [("A", ["B"]), ("B", ["A"]), ("C", ["D"]), ("D", ["C"])] "A"
      = some "B")
    (rfl : partner_of [("A", ["B"]), ("B", ["A"]), ("C", ["D"]), ("D", ["C"])] "C"
      = some "D")
    (by decide)
    (rfl : alist_get stable_phase2 "A" = some ["C", "B", "D"])
    (rfl : alist_get stable_phase2 "C" = some ["D", "B", "A"])⟩

/-- **C2**: on every contract-satisfying input on which
`find_stable_pairings` succeeds, the returned table keeps exactly the
input's participants, maps each to a list of exactly one partner, and the
assignment is symmetric: `partner (partner p) = p` for every `p`. -/
theorem C2_success_matching {t0 m s : Table α} {fuel : Nat}
    (V : valid_table t0 = true)
    (h : find_stable_pairings t0 fuel = (.ok (.matching m), s)) :
    m.map Prod.fst = t0.map Prod.fst ∧
    (∀ p ∈ t0.map Prod.fst, ∃ lp, alist_get m p = some lp ∧ lp.length = 1) ∧
    (∀ p q, partner_of m p = some q → partner_of m q = some p) := by
  obtain ⟨hkeys, hsing, hsymm, hsub, -⟩ := fsp_success_properties V h
  refine ⟨hkeys, hsing, ?_⟩
  intro p q hpq
  unfold partner_of at hpq ⊢
  rcases hlp : alist_get m p with _ | lp
  · rw [hlp] at hpq; simp at hpq
  rw [hlp] at hpq
  have hhd : lp.head? = some q := by simpa using hpq
  have hpkey : p ∈ t0.map Prod.fst := by
    rw [← hkeys]; exact alist_get_isSome_iff.mp (by rw [hlp]; rfl)
  obtain ⟨lp', hlp', hlen⟩ := hsing p hpkey
  rw [hlp] at hlp'
  obtain rfl : lp = lp' := by simpa using hlp'
  obtain rfl : lp = [q] := length_one_head hlen hhd
  obtain ⟨l0p, h0p, hslp⟩ := subtable_get0 hsub hkeys hlp
  have hq0 : q ∈ l0p := hslp.mem (by simp)
  have hqkey : q ∈ t0.map Prod.fst := ((valid_mem_iff V h0p q).mp hq0).1
  obtain ⟨lq, hlq, hlenq⟩ := hsing q hqkey
  have hplq : p ∈ lq := by
    by_contra hc
    exact (hsymm q p lq [q] hlq hlp hc) (by simp)
  obtain ⟨x, rfl⟩ : ∃ x, lq = [x] := by
    cases lq with
    | nil => simp at hlenq
    | cons y ys =>
      cases ys with
      | nil => exact ⟨y, rfl⟩
      | cons z zs => simp at hlenq
  obtain rfl : p = x := by simpa using hplq
  rw [hlq]
  rfl

theorem C2_witness :
    valid_table stable_phase1 = true ∧
    ((([("A", ["B"]), ("B", ["A"]), ("C", ["D"]), ("D", ["C"])] : Table String).map
        Prod.fst = stable_phase1.map Prod.fst) ∧
     (∀ p ∈ stable_phase1.map Prod.fst, ∃ lp,
        alist_get [("A", ["B"]), ("B", ["A"]), ("C", ["D"]), ("D", ["C"])] p
          = some lp ∧ lp.length = 1) ∧
     (∀ p q,
        partner_of [("A", ["B"]), ("B", ["A"]), ("C", ["D"]), ("D", ["C"])] p
          = some q →
        partner_of [("A", ["B"]), ("B", ["A"]), ("C", ["D"]), ("D", ["C"])] q
          = some p)) :=
  ⟨by decide, C2_success_matching (by decide)
    (rfl : find_stable_pairings stable_phase1 6 =
      (.ok (.matching [("A", ["B"]), ("B", ["A"]), ("C", ["D"]), ("D", ["C"])]),
       [("A", ["B"]), ("B", ["A"]), ("C", ["D"]), ("D", ["C"])]))⟩

/-- **C8**: on a contract-satisfying input the preference table keeps the
removal symmetry invariant throughout both phases: after Phase 1's
proposals (`make_proposals`), after the trimming step
(`remove_trailing_prefs`), after every `remove_pairs` call that runs to
completion or stops at the emptied-list raise (the rotation removals of
`get_stable_match`), and in the final matching: whenever `b` is absent
from `a`'s list, `a` is absent from `b`'s list. -/
theorem C8_removal_symmetry {t0 : Table α} (V : valid_table t0 = true) :
    (∀ fuel rec t1, make_proposals fuel t0 =
        ((.ok rec : Except PyErr (Record α)), t1) → SymTable t1) ∧
    (∀ fuel rec t1 t2 (u : Unit), make_proposals fuel t0 =
        ((.ok rec : Except PyErr (Record α)), t1) →
      is_stable_table rec = true →
      remove_trailing_prefs rec t1 = (.ok u, t2) → SymTable t2) ∧
    (∀ (ps : List (α × α)) (t t' : Table α) (res : Except PyErr Unit),
      SymTable t → NodupTable t → remove_pairs ps t = (res, t') →
      res = .ok () ∨ res = .error .unstable → SymTable t') ∧
    (∀ fuel m s, find_stable_pairings t0 fuel =
        ((.ok (.matching m) : Except PyErr (SRRet α)), s) → SymTable m) := by
  refine ⟨?_, ?_, ?_, ?_⟩
  · intro fuel rec t1 h
    exact (make_proposals_inv V h).sym
  · intro fuel rec t1 t2 u h hst hrt
    exact (remove_trailing_prefs_spec V (make_proposals_inv V h) hst hrt).1.sym
  · intro ps t t' res hsym hnd h hres
    exact (remove_pairs_state hnd h hres).1 hsym
  · intro fuel m s h
    exact (fsp_success_properties V h).2.2.1

theorem C8_witness :
    valid_table stable_phase2 = true ∧
    ((∀ fuel rec t1, make_proposals fuel stable_phase2 =
        ((.ok rec : Except PyErr (Record String)), t1) → SymTable t1) ∧
     (∀ fuel rec t1 t2 (u : Unit), make_proposals fuel stable_phase2 =
        ((.ok rec : Except PyErr (Record String)), t1) →
      is_stable_table rec = true →
      remove_trailing_prefs rec t1 = (.ok u, t2) → SymTable t2) ∧
     (∀ (ps : List (String × String)) (t t' : Table String)
        (res : Except PyErr Unit),
      SymTable t → NodupTable t → remove_pairs ps t = (res, t') →
      res = .ok () ∨ res = .error .unstable → SymTable t') ∧
     (∀ fuel m s, find_stable_pairings stable_phase2 fuel =
        ((.ok (.matching m) : Except PyErr (SRRet String)), s) → SymTable m)) :=
  ⟨by decide, C8_removal_symmetry (by decide)⟩

theorem getLast_mem_of_getLast? {l : List α} {x : α}
    (h : l.getLast? = some x) : x ∈ l := by
  induction l with
  | nil => simp at h
  | cons a rest ih =>
    cases rest with
    | nil =>
      obtain rfl : a = x := by simpa using h
      simp
    | cons b t =>
      rw [List.getLast?_cons_cons] at h
      exact List.mem_cons_of_mem _ (ih h)

/-- The recursive cycle search cannot run out of fuel when given
`fc_fuel`: each step extends the duplicate-free `p` sequence with a value
listed somewhere in the table, so the sequence repeats within the finite
pool of listed participants (§"Continue appending until some p repeats").
Everything past the seed entry of `pRev` must be a listed value. -/
theorem find_cycle_no_fuelOut {prefs : Table α} :
    ∀ (fuel : Nat) (pRev qRev : List α),
      pRev ≠ [] → pRev.Nodup →
      (∀ x ∈ pRev.take (pRev.length - 1), x ∈ (prefs.map Prod.snd).join) →
      (prefs.map (fun kv => kv.2.length)).sum + 2 ≤ fuel + pRev.length →
      find_cycle prefs fuel pRev qRev ≠ .error .fuelOut := by
  intro fuel
  induction fuel with
  | zero =>
    intro pRev qRev hne hnd htake hfuel hcontr
    have hndt : (pRev.take (pRev.length - 1)).Nodup :=
      hnd.sublist (List.take_sublist ..)
    have hsp : List.Subperm (pRev.take (pRev.length - 1))
        ((prefs.map Prod.snd).join) :=
      hndt.subperm htake
    have hlen1 : (pRev.take (pRev.length - 1)).length = pRev.length - 1 := by
      rw [List.length_take]
      exact Nat.min_eq_left (Nat.sub_le ..)
    have hjoin : ((prefs.map Prod.snd).join).length =
        (prefs.map (fun kv => kv.2.length)).sum := by
      rw [List.length_join, List.map_map]
      rfl
    have h1 : pRev.length - 1 ≤ (prefs.map (fun kv => kv.2.length)).sum := by
      rw [← hjoin, ← hlen1]
      exact hsp.length_le
    omega
  | succ fuel ih =>
    intro pRev qRev hne hnd htake hfuel hc
    rcases pRev with _ | ⟨pLast, pRest⟩
    · exact absurd rfl hne
    simp only [find_cycle] at hc
    rcases hpl : alist_get prefs pLast with _ | pl <;> simp only [hpl] at hc
    · simp at hc
    rcases hget : pl.get? 1 with _ | new_q <;> simp only [hget] at hc
    · simp at hc
    rcases hql : alist_get prefs new_q with _ | ql <;> simp only [hql] at hc
    · simp at hc
    rcases hlast : ql.getLast? with _ | new_p <;> simp only [hlast] at hc
    · simp at hc
    by_cases hmem : new_p ∈ pLast :: pRest
    · rw [if_pos hmem] at hc
      simp at hc
    · rw [if_neg hmem] at hc
      refine ih (new_p :: pLast :: pRest) (new_q :: qRev) (by simp)
        (List.nodup_cons.mpr ⟨hmem, hnd⟩) ?_ (by
          simp only [List.length_cons] at hfuel ⊢
          omega) hc
      intro x hx
      simp only [List.length_cons, Nat.add_sub_cancel, List.take_succ_cons,
        List.mem_cons] at hx
      rcases hx with rfl | hx
      · have hqlmem : ql ∈ prefs.map Prod.snd :=
          List.mem_map_of_mem Prod.snd (alist_get_mem hql)
        exact List.mem_join.mpr ⟨ql, hqlmem, getLast_mem_of_getLast? hlast⟩
      · refine htake x ?_
        simpa [Nat.add_sub_cancel] using hx

theorem C10_witness :
    remove_pairs [("A", "B")] ([("A", ["B"]), ("B", ["A"])] : Table String) =
      (.error .unstable, [("A", []), ("B", [])]) ∧
    ∃ k, k < ([("A", "B")] : List (String × String)).length ∧
      remove_pairs (([("A", "B")] : List (String × String)).take (k + 1))
          ([("A", ["B"]), ("B", ["A"])] : Table String) =
        (.error .unstable, [("A", []), ("B", [])]) ∧
      ∃ l r, ([("A", "B")] : List (String × String)).get? k = some (l, r) ∧
        (alist_get ([("A", []), ("B", [])] : Table String) l = some [] ∨
         alist_get ([("A", []), ("B", [])] : Table String) r = some []) :=
  ⟨rfl, C10_remove_pairs_not_atomic rfl⟩

end StableRoommates
